import Mathlib

/-!
# Verification of the revorbis bitwise I/O engine and codebook subsystem

This development shallowly embeds the core of the `revorbis` Vorbis
bitstream layer (`src/bitwise.rs` and `src/codebook.rs`) in Lean 4 and
proves/refutes the specified properties.

Modelling conventions:
* Bytes are `Nat` values (kept `< 256` by invariants); byte buffers are
  `List Nat`.  Machine integers (`u32`, `i32`, `i8`) are modelled as `Nat`
  or `Int` with explicit masks/`% 2^w` at the points where the Rust code
  truncates (`as u8` casts, wrapping shifts).
* `io::Result` is modelled as `Except Err`.  The repository's
  `return_Err!` macro constructs a typed `io::Error` and (because
  `PANIC_ON_ERROR = true`) aborts with it; the observable behaviour is
  "fails with that typed error", which we model as `Except.error` of the
  error kind.  Genuine Rust panics that are *not* `return_Err!` (such as
  out-of-bounds `Vec` indexing or arithmetic overflow) are modelled by the
  separate error value `Err.panic`.
* `f32` fields (`q_min`, `q_delta`) are carried as raw 32-bit patterns
  (`Nat`), exactly as the bitstream stores them (`write_f32!`/`read_f32!`
  transmute the bit pattern).  Floating point arithmetic itself
  (`book_unquantize` values, the `powf` initial guess in
  `book_maptype1_quantvals`) is not shallowly embeddable; where it occurs
  it is factored out as a parameter or reduced to the integer-observable
  part, with a comment at the definition.
-/

namespace Revorbis

/-- The `io::ErrorKind`s used by the embedded code, plus `panic` for
genuine Rust panics (out-of-bounds indexing, arithmetic overflow). -/
inductive Err where
  | invalidData
  | unexpectedEof
  | invalidInput
  | panic
  deriving DecidableEq, Repr

instance {ε α : Type} [DecidableEq ε] [DecidableEq α] : DecidableEq (Except ε α) := fun x y =>
  match x, y with
  | .ok a, .ok b => if h : a = b then .isTrue (by rw [h]) else .isFalse (by simp [h])
  | .error a, .error b => if h : a = b then .isTrue (by rw [h]) else .isFalse (by simp [h])
  | .ok _, .error _ => .isFalse (by simp)
  | .error _, .ok _ => .isFalse (by simp)

@[simp] theorem bind_ok_eq {ε α β : Type} (a : α) (f : α → Except ε β) :
    (Except.ok a : Except ε α) >>= f = f a := rfl

@[simp] theorem bind_error_eq {ε α β : Type} (e : ε) (f : α → Except ε β) :
    (Except.error e : Except ε α) >>= f = .error e := rfl

@[simp] theorem pure_eq_ok {ε α : Type} (a : α) : (pure a : Except ε α) = .ok a := rfl

/-- The value of a byte list read little-endian (byte 0 is least
significant); the abstraction used throughout to state bit-level facts. -/
def bytesVal : List Nat → Nat
  | [] => 0
  | b :: rest => b + 256 * bytesVal rest

@[simp] theorem bytesVal_nil : bytesVal [] = 0 := rfl

@[simp] theorem bytesVal_cons (x : Nat) (l : List Nat) :
    bytesVal (x :: l) = x + 256 * bytesVal l := rfl

/-- `MASK[n] = 2^n - 1` (the table `MASK` in `bitwise.rs`, for `n ≤ 32`). -/
def mask (n : Nat) : Nat := 2 ^ n - 1

/-- `MASK8[n] = 2^n - 1` (the table `MASK8` in `bitwise.rs`, `n ≤ 8`). -/
def mask8 (n : Nat) : Nat := 2 ^ n - 1

/-- Bit length of a natural number, by fuel (structural so that it
evaluates by `decide`). -/
def bitlen : Nat → Nat → Nat
  | 0, _ => 0
  | f + 1, v => if v = 0 then 0 else bitlen f (v / 2) + 1

/-- The `ilog!` macro from `bitwise.rs`: the `while v != 0 {v >>= 1; ret += 1}`
loop over `v as u64`.  For the nonnegative quantities it is applied to in
the embedded code this is the bit length. -/
def ilog (v : Int) : Nat := bitlen 65 ((v % (2 ^ 64 : Nat)).toNat)

/-- The `align` function from `bitwise.rs`. -/
def align (size alignment : Nat) : Nat :=
  if size ≠ 0 then ((size - 1) / alignment + 1) * alignment else 0

/-! ## BitReader (`src/bitwise.rs`) -/

/-- `BitReader`: borrowed byte slice plus cursor/sub-byte offset state. -/
structure BitReader where
  endbit : Nat
  total_bits : Nat
  data : List Nat
  cursor : Nat
  deriving DecidableEq, Repr

/-- `BitReader::new`. -/
def BitReader.new (data : List Nat) : BitReader :=
  { endbit := 0, total_bits := 0, data := data, cursor := 0 }

/-- `BitReader::read`: LSB-first extraction of `bits` bits (`0 ≤ bits ≤ 32`).
Returns the read value (as the unsigned bit pattern) and the advanced
reader.  The conditional byte accesses and the error kinds mirror the
source exactly. -/
def BitReader.read (br : BitReader) (bits : Int) : Except Err (Nat × BitReader) :=
  if bits < 0 ∨ 32 < bits then .error .invalidInput
  else
    let origbits : Nat := bits.toNat
    let m := mask origbits
    let ptrIndex : Nat → Except Err Nat := fun index =>
      match br.data.get? (index + br.cursor) with
      | some b => .ok b
      | none => .error .unexpectedEof
    let bits := origbits + br.endbit
    if bits = 0 then .ok (0, br)
    else do
      let d0 ← ptrIndex 0
      let ret := d0 >>> br.endbit
      let ret ←
        if 8 < bits then do
          let d1 ← ptrIndex 1
          let ret := ret ||| (d1 <<< (8 - br.endbit))
          if 16 < bits then do
            let d2 ← ptrIndex 2
            let ret := ret ||| (d2 <<< (16 - br.endbit))
            if 24 < bits then do
              let d3 ← ptrIndex 3
              let ret := ret ||| (d3 <<< (24 - br.endbit))
              if 32 < bits ∧ br.endbit ≠ 0 then do
                let d4 ← ptrIndex 4
                pure (ret ||| (d4 <<< (32 - br.endbit)))
              else pure ret
            else pure ret
          else pure ret
        else pure ret
      pure (ret &&& m,
        { br with
          cursor := br.cursor + bits / 8
          endbit := bits % 8
          total_bits := br.total_bits + origbits })

/-! ### Arithmetic toolbox for LSB-first bit streams -/

theorem bytesVal_lt {l : List Nat} (h : ∀ b ∈ l, b < 256) :
    bytesVal l < 2 ^ (8 * l.length) := by
  induction l with
  | nil => simp [bytesVal]
  | cons b rest ih =>
    have hb : b < 256 := h b (List.mem_cons_self _ _)
    have hrest := ih (fun x hx => h x (List.mem_cons_of_mem _ hx))
    have h2 : 2 ^ (8 * (b :: rest).length) = 256 * 2 ^ (8 * rest.length) := by
      simp [List.length_cons, Nat.mul_add, Nat.mul_succ, pow_add, pow_succ]
      ring
    rw [h2, bytesVal]
    have : 256 * bytesVal rest + 256 ≤ 256 * 2 ^ (8 * rest.length) :=
      by
        have := Nat.mul_le_mul_left 256 (Nat.succ_le_of_lt hrest)
        simpa [Nat.mul_succ] using this
    omega

theorem bytesVal_drop {l : List Nat} (h : ∀ b ∈ l, b < 256) (k : Nat) :
    bytesVal (List.drop k l) = bytesVal l / 2 ^ (8 * k) := by
  induction k generalizing l with
  | zero => simp
  | succ k ih =>
    cases l with
    | nil => simp [bytesVal, Nat.zero_div]
    | cons b rest =>
      have hb : b < 256 := h b (List.mem_cons_self _ _)
      have hrest : ∀ x ∈ rest, x < 256 := fun x hx => h x (List.mem_cons_of_mem _ hx)
      have hpow : 2 ^ (8 * (k + 1)) = 256 * 2 ^ (8 * k) := by
        rw [Nat.mul_add, pow_add]; norm_num [Nat.mul_comm]
      rw [List.drop_succ_cons, ih hrest, bytesVal, hpow,
        ← Nat.div_div_eq_div_mul]
      congr 1
      rw [Nat.add_mul_div_left _ _ (by norm_num : (0:Nat) < 256)]
      simp [Nat.div_eq_of_lt hb]

/-- Writing `A >>> e ||| d <<< (m - e)` (the `BitReader::read` accumulation
step) is exact addition of the next byte's contribution. -/
theorem shr_or_shl {A d e m : Nat} (hA : A < 2 ^ m) (he : e ≤ m) :
    (A >>> e) ||| (d <<< (m - e)) = (A + 2 ^ m * d) >>> e := by
  have hpow : 2 ^ m = 2 ^ e * 2 ^ (m - e) := by
    rw [← pow_add]; congr 1; omega
  have hdivlt : A >>> e < 2 ^ (m - e) := by
    rw [Nat.shiftRight_eq_div_pow]
    apply Nat.div_lt_of_lt_mul
    rw [← hpow] at *
    omega
  rw [Nat.shiftLeft_eq, Nat.lor_comm, Nat.mul_comm d _, ← Nat.mul_add_lt_is_or hdivlt]
  rw [Nat.shiftRight_eq_div_pow, Nat.shiftRight_eq_div_pow]
  rw [hpow, Nat.add_comm A, Nat.mul_assoc,
    show 2 ^ e * (2 ^ (m - e) * d) = 2 ^ (m - e) * d * 2 ^ e by ring,
    show 2 ^ (m - e) * d * 2 ^ e + A = 2 ^ e * (2 ^ (m - e) * d) + A by ring,
    Nat.mul_add_div (Nat.two_pow_pos e)]

theorem shr_mod_eq {x e b n : Nat} (h : e + b ≤ n) :
    ((x % 2 ^ n) >>> e) % 2 ^ b = (x >>> e) % 2 ^ b := by
  apply Nat.eq_of_testBit_eq
  intro j
  rcases Nat.lt_or_ge j b with hj | hj
  · have hen : e + j < n := by omega
    simp [Nat.testBit_mod_two_pow, Nat.testBit_shiftRight, hj, hen]
  · simp [Nat.testBit_mod_two_pow, Nat.lt_iff_add_one_le, hj,
      Nat.not_lt.mpr hj]

theorem shiftRight_mod_cast {x e b n : Nat} (h : e + b ≤ 8 * n)
    {X : Nat} (hX : X = x % 2 ^ (8 * n)) :
    (X >>> e) % 2 ^ b = (x >>> e) % 2 ^ b := by
  subst hX; exact shr_mod_eq h

theorem drop_cons_of_lt {l : List Nat} {n : Nat} (h : n < l.length) :
    l.drop n = l.get ⟨n, h⟩ :: l.drop (n + 1) := by
  rw [List.drop_eq_getElem_cons h]; rfl

/-- Value identity for a 1-byte `read`. -/
theorem readval1 {d0 R e b : Nat} (hd0 : d0 < 256) (he : e < 8) (h2 : b + e ≤ 8) :
    (d0 >>> e) &&& mask b = ((d0 + 256 * R) >>> e) % 2 ^ b := by
  rw [mask, Nat.and_pow_two_sub_one_eq_mod]
  have hX : d0 % 2 ^ 8 = d0 := Nat.mod_eq_of_lt (by norm_num [hd0])
  calc (d0 >>> e) % 2 ^ b
      = (((d0 + 2 ^ 8 * R) % 2 ^ 8) >>> e) % 2 ^ b := by
        rw [Nat.add_mul_mod_self_left, hX]
    _ = ((d0 + 2 ^ 8 * R) >>> e) % 2 ^ b := shr_mod_eq (by omega)
    _ = ((d0 + 256 * R) >>> e) % 2 ^ b := by norm_num

/-- Value identity for a 2-byte `read`. -/
theorem readval2 {d0 d1 R e b : Nat} (hd0 : d0 < 256) (hd1 : d1 < 256)
    (he : e < 8) (h1 : 8 < b + e) (h2 : b + e ≤ 16) :
    ((d0 >>> e) ||| (d1 <<< (8 - e))) &&& mask b
      = ((d0 + 256 * (d1 + 256 * R)) >>> e) % 2 ^ b := by
  rw [shr_or_shl (show d0 < 2 ^ 8 by norm_num [hd0]) (by omega)]
  rw [mask, Nat.and_pow_two_sub_one_eq_mod]
  have hX : d0 + 2 ^ 8 * d1 < 2 ^ 16 := by norm_num; omega
  have hrw : d0 + 256 * (d1 + 256 * R) = (d0 + 2 ^ 8 * d1) + 2 ^ 16 * R := by ring_nf
  rw [hrw]
  calc ((d0 + 2 ^ 8 * d1) >>> e) % 2 ^ b
      = ((((d0 + 2 ^ 8 * d1) + 2 ^ 16 * R) % 2 ^ 16) >>> e) % 2 ^ b := by
        rw [Nat.add_mul_mod_self_left, Nat.mod_eq_of_lt hX]
    _ = (((d0 + 2 ^ 8 * d1) + 2 ^ 16 * R) >>> e) % 2 ^ b := shr_mod_eq (by omega)

/-- Value identity for a 3-byte `read`. -/
theorem readval3 {d0 d1 d2 R e b : Nat} (hd0 : d0 < 256) (hd1 : d1 < 256)
    (hd2 : d2 < 256) (he : e < 8) (h1 : 16 < b + e) (h2 : b + e ≤ 24) :
    (((d0 >>> e) ||| (d1 <<< (8 - e))) ||| (d2 <<< (16 - e))) &&& mask b
      = ((d0 + 256 * (d1 + 256 * (d2 + 256 * R))) >>> e) % 2 ^ b := by
  rw [shr_or_shl (show d0 < 2 ^ 8 by norm_num [hd0]) (by omega),
    shr_or_shl (show d0 + 2 ^ 8 * d1 < 2 ^ 16 by norm_num; omega) (by omega)]
  rw [mask, Nat.and_pow_two_sub_one_eq_mod]
  have hX : d0 + 2 ^ 8 * d1 + 2 ^ 16 * d2 < 2 ^ 24 := by norm_num; omega
  have hrw : d0 + 256 * (d1 + 256 * (d2 + 256 * R))
      = (d0 + 2 ^ 8 * d1 + 2 ^ 16 * d2) + 2 ^ 24 * R := by ring_nf
  rw [hrw]
  calc ((d0 + 2 ^ 8 * d1 + 2 ^ 16 * d2) >>> e) % 2 ^ b
      = ((((d0 + 2 ^ 8 * d1 + 2 ^ 16 * d2) + 2 ^ 24 * R) % 2 ^ 24) >>> e) % 2 ^ b := by
        rw [Nat.add_mul_mod_self_left, Nat.mod_eq_of_lt hX]
    _ = (((d0 + 2 ^ 8 * d1 + 2 ^ 16 * d2) + 2 ^ 24 * R) >>> e) % 2 ^ b :=
        shr_mod_eq (by omega)

/-- Value identity for a 4-byte `read`. -/
theorem readval4 {d0 d1 d2 d3 R e b : Nat} (hd0 : d0 < 256) (hd1 : d1 < 256)
    (hd2 : d2 < 256) (hd3 : d3 < 256) (he : e < 8) (h1 : 24 < b + e) (h2 : b + e ≤ 32) :
    ((((d0 >>> e) ||| (d1 <<< (8 - e))) ||| (d2 <<< (16 - e))) ||| (d3 <<< (24 - e))) &&& mask b
      = ((d0 + 256 * (d1 + 256 * (d2 + 256 * (d3 + 256 * R)))) >>> e) % 2 ^ b := by
  rw [shr_or_shl (show d0 < 2 ^ 8 by norm_num [hd0]) (by omega),
    shr_or_shl (show d0 + 2 ^ 8 * d1 < 2 ^ 16 by norm_num; omega) (by omega),
    shr_or_shl (show d0 + 2 ^ 8 * d1 + 2 ^ 16 * d2 < 2 ^ 24 by norm_num; omega) (by omega)]
  rw [mask, Nat.and_pow_two_sub_one_eq_mod]
  have hX : d0 + 2 ^ 8 * d1 + 2 ^ 16 * d2 + 2 ^ 24 * d3 < 2 ^ 32 := by norm_num; omega
  have hrw : d0 + 256 * (d1 + 256 * (d2 + 256 * (d3 + 256 * R)))
      = (d0 + 2 ^ 8 * d1 + 2 ^ 16 * d2 + 2 ^ 24 * d3) + 2 ^ 32 * R := by ring_nf
  rw [hrw]
  calc ((d0 + 2 ^ 8 * d1 + 2 ^ 16 * d2 + 2 ^ 24 * d3) >>> e) % 2 ^ b
      = ((((d0 + 2 ^ 8 * d1 + 2 ^ 16 * d2 + 2 ^ 24 * d3) + 2 ^ 32 * R) % 2 ^ 32) >>> e)
          % 2 ^ b := by
        rw [Nat.add_mul_mod_self_left, Nat.mod_eq_of_lt hX]
    _ = (((d0 + 2 ^ 8 * d1 + 2 ^ 16 * d2 + 2 ^ 24 * d3) + 2 ^ 32 * R) >>> e) % 2 ^ b :=
        shr_mod_eq (by omega)

/-- Value identity for a 5-byte `read` (32-bit read at a nonzero offset). -/
theorem readval5 {d0 d1 d2 d3 d4 R e b : Nat} (hd0 : d0 < 256) (hd1 : d1 < 256)
    (hd2 : d2 < 256) (hd3 : d3 < 256) (hd4 : d4 < 256)
    (h1 : 32 < b + e) (h2 : b + e ≤ 39) (he : e < 8) :
    (((((d0 >>> e) ||| (d1 <<< (8 - e))) ||| (d2 <<< (16 - e))) ||| (d3 <<< (24 - e)))
        ||| (d4 <<< (32 - e))) &&& mask b
      = ((d0 + 256 * (d1 + 256 * (d2 + 256 * (d3 + 256 * (d4 + 256 * R))))) >>> e)
          % 2 ^ b := by
  rw [shr_or_shl (show d0 < 2 ^ 8 by norm_num [hd0]) (by omega),
    shr_or_shl (show d0 + 2 ^ 8 * d1 < 2 ^ 16 by norm_num; omega) (by omega),
    shr_or_shl (show d0 + 2 ^ 8 * d1 + 2 ^ 16 * d2 < 2 ^ 24 by norm_num; omega) (by omega),
    shr_or_shl (show d0 + 2 ^ 8 * d1 + 2 ^ 16 * d2 + 2 ^ 24 * d3 < 2 ^ 32 by norm_num; omega)
      (by omega)]
  rw [mask, Nat.and_pow_two_sub_one_eq_mod]
  have hX : d0 + 2 ^ 8 * d1 + 2 ^ 16 * d2 + 2 ^ 24 * d3 + 2 ^ 32 * d4 < 2 ^ 40 := by
    norm_num; omega
  have hrw : d0 + 256 * (d1 + 256 * (d2 + 256 * (d3 + 256 * (d4 + 256 * R))))
      = (d0 + 2 ^ 8 * d1 + 2 ^ 16 * d2 + 2 ^ 24 * d3 + 2 ^ 32 * d4) + 2 ^ 40 * R := by
    ring_nf
  rw [hrw]
  calc ((d0 + 2 ^ 8 * d1 + 2 ^ 16 * d2 + 2 ^ 24 * d3 + 2 ^ 32 * d4) >>> e) % 2 ^ b
      = ((((d0 + 2 ^ 8 * d1 + 2 ^ 16 * d2 + 2 ^ 24 * d3 + 2 ^ 32 * d4) + 2 ^ 40 * R)
            % 2 ^ 40) >>> e) % 2 ^ b := by
        rw [Nat.add_mul_mod_self_left, Nat.mod_eq_of_lt hX]
    _ = (((d0 + 2 ^ 8 * d1 + 2 ^ 16 * d2 + 2 ^ 24 * d3 + 2 ^ 32 * d4) + 2 ^ 40 * R) >>> e)
          % 2 ^ b := shr_mod_eq (by omega)

/-- Success case of `BitReader::read`: with enough data, reading `b ≤ 32`
bits returns bits `pos .. pos+b` of the stream (LSB-first, `pos` the
current bit position `8*cursor + endbit`) and advances the position and
`total_bits` by exactly `b`. -/
theorem BitReader.read_ok (br : BitReader) (b : Nat) (hb : b ≤ 32)
    (hbytes : ∀ x ∈ br.data, x < 256) (he : br.endbit < 8)
    (hlen : 8 * br.cursor + br.endbit + b ≤ 8 * br.data.length) :
    br.read (b : Int) = .ok
      ((bytesVal br.data >>> (8 * br.cursor + br.endbit)) % 2 ^ b,
       { endbit := (b + br.endbit) % 8
         total_bits := br.total_bits + b
         data := br.data
         cursor := br.cursor + (b + br.endbit) / 8 }) := by
  obtain ⟨e, tb, l, c⟩ := br
  simp only at hbytes he hlen ⊢
  have hrange : ¬((b : Int) < 0 ∨ 32 < (b : Int)) := by omega
  rw [BitReader.read, if_neg hrange]
  simp only [Int.toNat_ofNat]
  have hSc : bytesVal l >>> (8 * c + e) = bytesVal (l.drop c) >>> e := by
    rw [Nat.shiftRight_eq_div_pow, Nat.shiftRight_eq_div_pow,
      bytesVal_drop hbytes c, pow_add, ← Nat.div_div_eq_div_mul]
  by_cases h0 : b + e = 0
  · rw [if_pos h0]
    obtain ⟨hb0, he0⟩ : b = 0 ∧ e = 0 := by omega
    subst hb0; subst he0
    simp [Nat.mod_one]
  · rw [if_neg h0]
    -- every case needs the first byte
    have hc0 : c + 0 < l.length := by omega
    have hg : ∀ k (hk : c + k < l.length), l.get? (k + c) = some (l.get ⟨c + k, hk⟩) := by
      intro k hk
      rw [Nat.add_comm k c]
      exact List.get?_eq_get hk
    have hdropk : ∀ k (hk : c + k < l.length),
        l.drop (c + k) = l.get ⟨c + k, hk⟩ :: l.drop (c + k + 1) := fun k hk =>
      drop_cons_of_lt hk
    have hbk : ∀ k (hk : c + k < l.length), l.get ⟨c + k, hk⟩ < 256 := fun k hk =>
      hbytes _ (List.get_mem l _ hk)
    rcases Nat.lt_or_ge 8 (b + e) with h8 | h8
    · -- at least two bytes
      have hc1 : c + 1 < l.length := by omega
      rcases Nat.lt_or_ge 16 (b + e) with h16 | h16
      · -- at least three bytes
        have hc2 : c + 2 < l.length := by omega
        rcases Nat.lt_or_ge 24 (b + e) with h24 | h24
        · -- at least four bytes
          have hc3 : c + 3 < l.length := by omega
          rcases Nat.lt_or_ge 32 (b + e) with h32 | h32
          · -- five bytes: 32 < b + e ≤ 39, so e ≠ 0
            have hc4 : c + 4 < l.length := by omega
            have hene : e ≠ 0 := by omega
            simp only [hg 0 hc0, hg 1 hc1, hg 2 hc2, hg 3 hc3, hg 4 hc4,
              if_pos h8, if_pos h16, if_pos h24, if_pos (And.intro h32 hene),
              bind_ok_eq, bind_error_eq, pure_eq_ok, Except.ok.injEq, Prod.mk.injEq]
            have e0 : List.drop c l = l.get ⟨c + 0, hc0⟩ :: List.drop (c + 1) l := hdropk 0 hc0
            have e1 : List.drop (c + 1) l = l.get ⟨c + 1, hc1⟩ :: List.drop (c + 2) l :=
              hdropk 1 hc1
            have e2 : List.drop (c + 2) l = l.get ⟨c + 2, hc2⟩ :: List.drop (c + 3) l :=
              hdropk 2 hc2
            have e3 : List.drop (c + 3) l = l.get ⟨c + 3, hc3⟩ :: List.drop (c + 4) l :=
              hdropk 3 hc3
            have e4 : List.drop (c + 4) l = l.get ⟨c + 4, hc4⟩ :: List.drop (c + 5) l :=
              hdropk 4 hc4
            refine And.intro ?_ trivial
            rw [hSc, e0, e1, e2, e3, e4]
            simp only [bytesVal]
            exact readval5 (hbk 0 hc0) (hbk 1 hc1) (hbk 2 hc2) (hbk 3 hc3) (hbk 4 hc4)
              (by omega) (by omega) he
          · -- four bytes: 24 < b + e ≤ 32
            have hno : ¬(32 < b + e ∧ e ≠ 0) := by omega
            simp only [hg 0 hc0, hg 1 hc1, hg 2 hc2, hg 3 hc3,
              if_pos h8, if_pos h16, if_pos h24, if_neg hno,
              bind_ok_eq, bind_error_eq, pure_eq_ok, Except.ok.injEq, Prod.mk.injEq]
            have e0 : List.drop c l = l.get ⟨c + 0, hc0⟩ :: List.drop (c + 1) l := hdropk 0 hc0
            have e1 : List.drop (c + 1) l = l.get ⟨c + 1, hc1⟩ :: List.drop (c + 2) l :=
              hdropk 1 hc1
            have e2 : List.drop (c + 2) l = l.get ⟨c + 2, hc2⟩ :: List.drop (c + 3) l :=
              hdropk 2 hc2
            have e3 : List.drop (c + 3) l = l.get ⟨c + 3, hc3⟩ :: List.drop (c + 4) l :=
              hdropk 3 hc3
            refine And.intro ?_ trivial
            rw [hSc, e0, e1, e2, e3]
            simp only [bytesVal]
            exact readval4 (hbk 0 hc0) (hbk 1 hc1) (hbk 2 hc2) (hbk 3 hc3)
              he (by omega) (by omega)
        · -- three bytes: 16 < b + e ≤ 24
          simp only [hg 0 hc0, hg 1 hc1, hg 2 hc2,
            if_pos h8, if_pos h16, if_neg (by omega : ¬24 < b + e),
            bind_ok_eq, bind_error_eq, pure_eq_ok, Except.ok.injEq, Prod.mk.injEq]
          have e0 : List.drop c l = l.get ⟨c + 0, hc0⟩ :: List.drop (c + 1) l := hdropk 0 hc0
          have e1 : List.drop (c + 1) l = l.get ⟨c + 1, hc1⟩ :: List.drop (c + 2) l :=
            hdropk 1 hc1
          have e2 : List.drop (c + 2) l = l.get ⟨c + 2, hc2⟩ :: List.drop (c + 3) l :=
            hdropk 2 hc2
          refine And.intro ?_ trivial
          rw [hSc, e0, e1, e2]
          simp only [bytesVal]
          exact readval3 (hbk 0 hc0) (hbk 1 hc1) (hbk 2 hc2) he (by omega) (by omega)
      · -- two bytes: 8 < b + e ≤ 16
        simp only [hg 0 hc0, hg 1 hc1,
          if_pos h8, if_neg (by omega : ¬16 < b + e),
          bind_ok_eq, bind_error_eq, pure_eq_ok, Except.ok.injEq, Prod.mk.injEq]
        have e0 : List.drop c l = l.get ⟨c + 0, hc0⟩ :: List.drop (c + 1) l := hdropk 0 hc0
        have e1 : List.drop (c + 1) l = l.get ⟨c + 1, hc1⟩ :: List.drop (c + 2) l :=
          hdropk 1 hc1
        refine And.intro ?_ trivial
        rw [hSc, e0, e1]
        simp only [bytesVal]
        exact readval2 (hbk 0 hc0) (hbk 1 hc1) he (by omega) (by omega)
    · -- one byte: 0 < b + e ≤ 8
      simp only [hg 0 hc0, if_neg (by omega : ¬8 < b + e),
        bind_ok_eq, bind_error_eq, pure_eq_ok, Except.ok.injEq, Prod.mk.injEq]
      have e0 : List.drop c l = l.get ⟨c + 0, hc0⟩ :: List.drop (c + 1) l := hdropk 0 hc0
      refine And.intro ?_ trivial
      rw [hSc, e0]
      simp only [bytesVal]
      exact readval1 (hbk 0 hc0) he (by omega)

/-- Out-of-range bit widths always fail with the invalid-input error. -/
theorem BitReader.read_invalid (br : BitReader) (bits : Int)
    (h : bits < 0 ∨ 32 < bits) : br.read bits = .error .invalidInput := by
  rw [BitReader.read, if_pos h]

/-- A read that would run past the end of the buffer fails with the
unexpected-end-of-data error. -/
theorem BitReader.read_eof (br : BitReader) (b : Nat) (hb : b ≤ 32)
    (he : br.endbit < 8)
    (hpos : 8 * br.cursor + br.endbit ≤ 8 * br.data.length)
    (hlen : 8 * br.data.length < 8 * br.cursor + br.endbit + b) :
    br.read (b : Int) = .error .unexpectedEof := by
  obtain ⟨e, tb, l, c⟩ := br
  simp only at he hpos hlen ⊢
  have hrange : ¬((b : Int) < 0 ∨ 32 < (b : Int)) := by omega
  rw [BitReader.read, if_neg hrange]
  simp only [Int.toNat_ofNat]
  rw [if_neg (by omega : ¬b + e = 0)]
  have hg : ∀ k (hk : c + k < l.length), l.get? (k + c) = some (l.get ⟨c + k, hk⟩) := by
    intro k hk
    rw [Nat.add_comm k c]
    exact List.get?_eq_get hk
  have hnone : ∀ k, l.length ≤ c + k → l.get? (k + c) = none := by
    intro k hk
    rw [Nat.add_comm k c]
    exact List.get?_eq_none.mpr hk
  by_cases hc0 : c + 0 < l.length
  · -- byte 0 present, so at least two bytes are demanded
    have h8 : 8 < b + e := by omega
    by_cases hc1 : c + 1 < l.length
    · have h16 : 16 < b + e := by omega
      by_cases hc2 : c + 2 < l.length
      · have h24 : 24 < b + e := by omega
        by_cases hc3 : c + 3 < l.length
        · have h32 : 32 < b + e := by omega
          have hene : e ≠ 0 := by omega
          have hc4 : l.length ≤ c + 4 := by omega
          simp only [hg 0 hc0, hg 1 hc1, hg 2 hc2, hg 3 hc3, hnone 4 hc4,
            if_pos h8, if_pos h16, if_pos h24, if_pos (And.intro h32 hene),
            bind_ok_eq, bind_error_eq, pure_eq_ok]
        · simp only [hg 0 hc0, hg 1 hc1, hg 2 hc2, hnone 3 (by omega),
            if_pos h8, if_pos h16, if_pos h24,
            bind_ok_eq, bind_error_eq, pure_eq_ok]
      · simp only [hg 0 hc0, hg 1 hc1, hnone 2 (by omega), if_pos h8, if_pos h16,
          bind_ok_eq, bind_error_eq, pure_eq_ok]
    · simp only [hg 0 hc0, hnone 1 (by omega), if_pos h8,
        bind_ok_eq, bind_error_eq, pure_eq_ok]
  · simp only [hnone 0 (by omega), bind_ok_eq, bind_error_eq, pure_eq_ok]

example : (BitReader.new [0xAB, 0xCD]).read 8 = .ok (0xAB,
    { endbit := 0, total_bits := 8, data := [0xAB, 0xCD], cursor := 1 }) := by decide

example :
    ((BitReader.new [0xAB, 0xCD]).read 4).bind (fun vr => vr.2.read 8) =
      .ok (0xDA, { endbit := 4, total_bits := 12, data := [0xAB, 0xCD], cursor := 1 }) := by
  decide

example : (BitReader.new [0xAB]).read 9 = .error .unexpectedEof := by decide
example : (BitReader.new [0xAB]).read 33 = .error .invalidInput := by decide
example : (BitReader.new []).read 0 = .ok (0, BitReader.new []) := by decide

/-- C8: `BitReader::read(bits)` fails with `InvalidInput` whenever `bits`
is outside `[0,32]`; fails with `UnexpectedEof` whenever the read would
run past the end of the buffer; on success returns the next `bits` bits
LSB-first and advances the bit position `cursor*8 + endbit` and
`total_bits` by exactly `bits`; and `read(0)` always succeeds returning
`0`, even at end of buffer.  (The hypotheses are the reachable-state
invariant of a reader over a byte buffer.) -/
theorem C8_bitreader_read_contract (br : BitReader)
    (hbytes : ∀ x ∈ br.data, x < 256) (he : br.endbit < 8)
    (hpos : 8 * br.cursor + br.endbit ≤ 8 * br.data.length) :
    (∀ bits : Int, (bits < 0 ∨ 32 < bits) → br.read bits = .error .invalidInput) ∧
    (∀ b : Nat, b ≤ 32 → 8 * br.data.length < 8 * br.cursor + br.endbit + b →
      br.read (b : Int) = .error .unexpectedEof) ∧
    (∀ b : Nat, b ≤ 32 → 8 * br.cursor + br.endbit + b ≤ 8 * br.data.length →
      br.read (b : Int) = .ok
        ((bytesVal br.data >>> (8 * br.cursor + br.endbit)) % 2 ^ b,
         { endbit := (b + br.endbit) % 8
           total_bits := br.total_bits + b
           data := br.data
           cursor := br.cursor + (b + br.endbit) / 8 })) ∧
    br.read 0 = .ok (0, br) := by
  refine ⟨fun bits h => br.read_invalid bits h,
    fun b hb hl => br.read_eof b hb he hpos hl,
    fun b hb hl => br.read_ok b hb hbytes he hl, ?_⟩
  have h := br.read_ok 0 (by norm_num) hbytes he (by omega)
  rw [show ((0 : Nat) : Int) = (0 : Int) by norm_num] at h
  rw [h]
  simp [Nat.mod_one, Nat.mod_eq_of_lt he, Nat.div_eq_of_lt he]

/-- Witness for `C8_bitreader_read_contract` at a concrete mid-stream
reader state. -/
theorem C8_bitreader_read_contract_witness :
    ({ endbit := 4, total_bits := 4, data := [0xAB, 0xCD], cursor := 0 } :
        BitReader).read ((8 : Nat) : Int) =
      .ok (0xDA, { endbit := 4, total_bits := 12, data := [0xAB, 0xCD], cursor := 1 }) := by
  have h := (C8_bitreader_read_contract
    { endbit := 4, total_bits := 4, data := [0xAB, 0xCD], cursor := 0 }
    (by decide) (by decide) (by decide)).2.2.1 8 (by norm_num) (by decide)
  rw [h]
  decide

/-! ## BitWriter (`src/bitwise.rs`)

The sink `W : Write` is instantiated (as in `BitWriterCursor`, the type
the repository uses to pack codebooks) with an in-memory byte vector
(`CursorVecU8`), whose `write_all` cannot fail; so the model's writer
operations are total apart from the explicit invalid-bit-count check. -/

/-- `BitWriter`: sub-byte offset, running bit count, sink bytes and the
byte cache that is flushed to the sink in whole-byte increments. -/
structure BitWriter where
  endbit : Nat
  total_bits : Nat
  writer : List Nat
  cache : List Nat
  deriving DecidableEq, Repr

/-- `BitWriter::CACHE_SIZE`. -/
def CACHE_SIZE : Nat := 1024

/-- `BitWriter::new` (with an empty `CursorVecU8` sink). -/
def BitWriter.new : BitWriter :=
  { endbit := 0, total_bits := 0, writer := [], cache := [] }

/-- `BitWriter::flush`: push all complete bytes of the cache to the sink,
retaining the (possibly partial) trailing byte when `endbit != 0`. -/
def BitWriter.flush (w : BitWriter) : BitWriter :=
  if w.cache.isEmpty then w
  else if w.endbit = 0 then
    { w with writer := w.writer ++ w.cache, cache := [] }
  else
    let len := w.cache.length
    let last_byte := w.cache.getD (len - 1) 0
    { w with writer := w.writer ++ w.cache.take (len - 1), cache := [last_byte] }

/-- `BitWriter::force_flush`: push the entire cache (partial final byte
included) and reset the bit offset. -/
def BitWriter.force_flush (w : BitWriter) : BitWriter :=
  { w with writer := w.writer ++ w.cache, cache := [], endbit := 0 }

/-- `BitWriter::write_byte`: append one byte to the cache, flushing when
the cache reaches `CACHE_SIZE`. -/
def BitWriter.write_byte (w : BitWriter) (byte : Nat) : BitWriter :=
  let w := { w with cache := w.cache ++ [byte] }
  if CACHE_SIZE ≤ w.cache.length then w.flush else w

/-- `BitWriter::write`: mask `value` to `bits` and write it LSB-first at
the current offset.  `last_byte()` appends a fresh `0` byte when the cache
is empty and the or-assignment/`as u8` casts truncate to 8 bits, exactly
as in the source. -/
def BitWriter.write (w : BitWriter) (value : Nat) (bits : Int) : Except Err BitWriter :=
  if bits < 0 ∨ 32 < bits then .error .invalidInput
  else
    let origbits : Nat := bits.toNat
    let value := value &&& mask origbits
    let e := w.endbit
    let bits := origbits + e
    -- *self.last_byte() |= (value << self.endbit) as u8
    let cache0 := if w.cache.isEmpty then w.cache ++ [0] else w.cache
    let w := { w with cache :=
      cache0.dropLast ++ [cache0.getD (cache0.length - 1) 0 ||| ((value <<< e) % 256)] }
    let w :=
      if 8 ≤ bits then
        let w := w.write_byte ((value >>> (8 - e)) % 256)
        if 16 ≤ bits then
          let w := w.write_byte ((value >>> (16 - e)) % 256)
          if 24 ≤ bits then
            let w := w.write_byte ((value >>> (24 - e)) % 256)
            if 32 ≤ bits then
              if e ≠ 0 then w.write_byte ((value >>> (32 - e)) % 256)
              else w.write_byte 0
            else w
          else w
        else w
      else w
    .ok { w with endbit := bits % 8, total_bits := w.total_bits + origbits }

/-- `BitWriterCursor::into_bytes`: force-flush, then take the sink. -/
def BitWriter.into_bytes (w : BitWriter) : List Nat :=
  w.force_flush.writer

example : (BitWriter.new.write 0xAB 8).map BitWriter.into_bytes = .ok [0xAB, 0] := by decide
example :
    ((BitWriter.new.write 0xB 4).bind (fun w => w.write 0xDA 8)).map BitWriter.into_bytes
      = .ok [0xAB, 0xD] := by decide
example : (BitWriter.new.write 5 33) = .error .invalidInput := by decide

/-- Read a sequence of bit widths in order, returning the values and the
final reader state ("reading the resulting byte stream back with
`BitReader::read` using the same widths in order"). -/
def readSeq (br : BitReader) : List Int → Except Err (List Nat × BitReader)
  | [] => .ok ([], br)
  | width :: ws => do
    let vr ← br.read width
    let rest ← readSeq vr.2 ws
    pure (vr.1 :: rest.1, rest.2)

/-- The C2 scenario: write `(5,8)` then `(7,8)` with a `flush()` in
between and `force_flush()` exactly once at the end (`into_bytes`). -/
def c2_bytes : Except Err (List Nat) := do
  let w := BitWriter.new
  let w ← w.write 5 8
  let w := w.flush
  let w ← w.write 7 8
  pure w.into_bytes

/-- C2 is violated by the code: a `flush()` at a byte-aligned position
writes the writer's zero placeholder byte to the sink as data, so the
stream becomes `[5, 0, 7, 0]` and reading back widths `[8,8]` yields
`[5, 0]`, not the written `[5, 7]` (the final `total_bits` of writer and
reader are both 16, but the values differ). -/
theorem C2_flush_midstream_corrupts :
    c2_bytes = .ok [5, 0, 7, 0] ∧
    (readSeq (BitReader.new [5, 0, 7, 0]) [8, 8]).map
        (fun p => (p.1, p.2.total_bits)) = .ok ([5, 0], 16) ∧
    [5, 0] ≠ [5, 7] := by decide

/-! ## BitwiseData (`src/bitwise.rs`)

`define_worksize!(8)` makes `Unit = u8`, `BITS = 8` and `ALIGN = 1`, so
`transmute_vector` is the identity, `align(len, ALIGN)` is `len`, and
`shift_data_to_front` works byte by byte.  The `u8` shifts
(`data2 << move_high`, `rhs.data[0] << shifts`) silently drop overflowing
bits, modelled by `% 256`.  The partial operations of the source
(`pop().unwrap()`, indexing `rhs.data[0]`, the slice in `new`) cannot
fail under the representation invariant assumed by the claims; the model
makes them total in the degenerate cases with `getLast?`/`headD`. -/

/-- The in-place loop body of `shift_data_to_front`:
`to_shift[i] = combine_bits(to_shift[i], to_shift[i+1], bits)` for
`i < len-1` (reading the not-yet-modified `i+1` entry), then the final
byte is shifted right. -/
def combineList (r : Nat) : List Nat → List Nat
  | [] => []
  | [a] => [a >>> r]
  | a :: b :: rest => ((a >>> r) ||| ((b <<< (8 - r)) % 256)) :: combineList r (b :: rest)

/-- `shift_data_to_front(data, bits, total_bits)`. -/
def shift_data_to_front (data : List Nat) (bits total_bits : Nat) : List Nat :=
  if bits = 0 then data
  else if total_bits ≤ bits then []
  else
    let shifted_total_bits := total_bits - bits
    let data := data.drop (bits >>> 3)
    let bits := bits % 8
    if bits = 0 then data
    else (combineList bits data).take (align shifted_total_bits 8 / 8)

/-- `BitwiseData`: owned byte buffer plus total bit count. -/
structure BitwiseData where
  data : List Nat
  total_bits : Nat
  deriving DecidableEq, Repr

/-- `BitwiseData::default()`. -/
def BitwiseData.dflt : BitwiseData := { data := [], total_bits := 0 }

/-- `BitwiseData::calc_total_bytes`. -/
def BitwiseData.calc_total_bytes (total_bits : Nat) : Nat := align total_bits 8 / 8

/-- `BitwiseData::remove_residue`: zero any bits beyond `total_bits` in
the final byte. -/
def BitwiseData.remove_residue (d : BitwiseData) : BitwiseData :=
  let residue_bits := d.total_bits % 8
  if residue_bits = 0 then d
  else
    match d.data.getLast? with
    | none => d
    | some byte => { d with data := d.data.dropLast ++ [byte &&& mask8 residue_bits] }

/-- `BitwiseData::new`: truncate to exactly the bytes needed, then remove
residue.  (The source slices `data[..calc_total_bytes]`, which requires
`total_bits ≤ 8 * data.len()`; the claims only use it there.) -/
def BitwiseData.new (data : List Nat) (total_bits : Nat) : BitwiseData :=
  BitwiseData.remove_residue
    { data := data.take (BitwiseData.calc_total_bytes total_bits), total_bits := total_bits }

/-- `BitwiseData::from_bytes`. -/
def BitwiseData.from_bytes (data : List Nat) : BitwiseData :=
  { data := data, total_bits := data.length * 8 }

/-- `BitwiseData::get_total_bytes`. -/
def BitwiseData.get_total_bytes (d : BitwiseData) : Nat :=
  BitwiseData.calc_total_bytes d.total_bits

/-- `BitwiseData::shrink_to_fit`: truncate to `get_total_bytes` bytes and
remove residue. -/
def BitwiseData.shrink_to_fit (d : BitwiseData) : BitwiseData :=
  BitwiseData.remove_residue { d with data := d.data.take d.get_total_bytes }

/-- `BitwiseData::split`. -/
def BitwiseData.split (d : BitwiseData) (split_at_bit : Nat) : BitwiseData × BitwiseData :=
  if split_at_bit = 0 then (BitwiseData.dflt, d)
  else if d.total_bits ≤ split_at_bit then (d, BitwiseData.dflt)
  else
    let data1 :=
      let dd := BitwiseData.shrink_to_fit { d with total_bits := split_at_bit }
      let last_bits := dd.total_bits % 8
      if last_bits ≠ 0 then
        match dd.data.getLast? with
        | none => dd
        | some last_byte =>
            { dd with data := dd.data.dropLast ++ [last_byte &&& mask8 last_bits] }
      else dd
    let data2 : BitwiseData :=
      { data := shift_data_to_front d.data split_at_bit d.total_bits
        total_bits := d.total_bits - split_at_bit }
    (data1, data2)

/-- `BitwiseData::concat`. -/
def BitwiseData.concat (d : BitwiseData) (rhs : BitwiseData) : BitwiseData :=
  if rhs.total_bits = 0 then d
  else
    let d := d.shrink_to_fit
    let shifts := d.total_bits % 8
    if shifts = 0 then
      { data := d.data ++ rhs.data, total_bits := d.total_bits + rhs.total_bits }
    else
      let shift_left := 8 - shifts
      let merged :=
        match d.data.getLast? with
        | none => d.data
        | some last_byte =>
            d.data.dropLast ++ [last_byte ||| ((rhs.data.headD 0 <<< shifts) % 256)]
      { data := merged ++ shift_data_to_front rhs.data shift_left rhs.total_bits
        total_bits := d.total_bits + rhs.total_bits }

/-- `BitwiseData::into_bytes`. -/
def BitwiseData.into_bytes (d : BitwiseData) : List Nat :=
  d.shrink_to_fit.data

/-- The representation invariant of C9: the buffer holds exactly
`ceil(total_bits/8)` bytes, each a byte value, and every bit beyond
`total_bits` in the final byte is zero (equivalently, the little-endian
value of the buffer is `< 2 ^ total_bits`). -/
def BDInv (d : BitwiseData) : Prop :=
  (∀ x ∈ d.data, x < 256) ∧
  d.data.length = BitwiseData.calc_total_bytes d.total_bits ∧
  bytesVal d.data < 2 ^ d.total_bits

instance (d : BitwiseData) : Decidable (BDInv d) :=
  inferInstanceAs (Decidable (_ ∧ _ ∧ _))

theorem bytesVal_append (a b : List Nat) :
    bytesVal (a ++ b) = bytesVal a + 2 ^ (8 * a.length) * bytesVal b := by
  induction a with
  | nil => simp [bytesVal]
  | cons x rest ih =>
    simp only [List.cons_append, bytesVal_cons, ih, List.length_cons]
    have : 2 ^ (8 * (rest.length + 1)) = 256 * 2 ^ (8 * rest.length) := by
      rw [Nat.mul_add, pow_add]; ring
    rw [this]; ring

theorem bytesVal_take {l : List Nat} (h : ∀ b ∈ l, b < 256) (k : Nat) :
    bytesVal (List.take k l) = bytesVal l % 2 ^ (8 * k) := by
  have hsplit := bytesVal_append (l.take k) (l.drop k)
  rw [List.take_append_drop] at hsplit
  have htlen : (l.take k).length ≤ k := by simp
  have htake : ∀ b ∈ l.take k, b < 256 := fun b hb => h b (List.mem_of_mem_take hb)
  have hlt : bytesVal (l.take k) < 2 ^ (8 * k) := by
    calc bytesVal (l.take k) < 2 ^ (8 * (l.take k).length) := bytesVal_lt htake
      _ ≤ 2 ^ (8 * k) := Nat.pow_le_pow_right (by norm_num) (by omega)
  rcases Nat.le_total k l.length with hk | hk
  · have hlen : (l.take k).length = k := by simp [hk]
    rw [hsplit, hlen, Nat.add_mul_mod_self_left, Nat.mod_eq_of_lt hlt]
  · rw [List.take_of_length_le hk]
    have : bytesVal l < 2 ^ (8 * k) := by
      calc bytesVal l < 2 ^ (8 * l.length) := bytesVal_lt h
        _ ≤ 2 ^ (8 * k) := Nat.pow_le_pow_right (by norm_num) (by omega)
    rw [Nat.mod_eq_of_lt this]

/-- Two byte buffers of the same length and the same little-endian value
are equal. -/
theorem bytesVal_inj : ∀ {a b : List Nat}, (∀ x ∈ a, x < 256) → (∀ x ∈ b, x < 256) →
    a.length = b.length → bytesVal a = bytesVal b → a = b := by
  intro a
  induction a with
  | nil => intro b _ _ hlen _; cases b with
    | nil => rfl
    | cons y ys => simp at hlen
  | cons x xs ih =>
    intro b ha hb hlen hval
    cases b with
    | nil => simp at hlen
    | cons y ys =>
      have hx : x < 256 := ha x (List.mem_cons_self _ _)
      have hy : y < 256 := hb y (List.mem_cons_self _ _)
      simp only [bytesVal] at hval
      have hxy : x = y := by omega
      subst hxy
      have htail : bytesVal xs = bytesVal ys := by omega
      have := ih (fun z hz => ha z (List.mem_cons_of_mem _ hz))
        (fun z hz => hb z (List.mem_cons_of_mem _ hz))
        (by simpa using hlen) htail
      rw [this]

/-- Splitting off the last byte of a buffer. -/
theorem bytesVal_dropLast_getLast {l : List Nat} (h : l ≠ []) :
    bytesVal l = bytesVal l.dropLast + 2 ^ (8 * (l.length - 1)) * l.getLast h := by
  conv_lhs => rw [← List.dropLast_append_getLast h]
  rw [bytesVal_append]
  simp [bytesVal, List.length_dropLast]

/-- Under the residue invariant, the last byte is bounded by the residue
width. -/
theorem getLast_lt_of_bytesVal_lt {l : List Nat} (h : l ≠ []) (rb : Nat)
    (hval : bytesVal l < 2 ^ (8 * (l.length - 1) + rb)) :
    l.getLast h < 2 ^ rb := by
  have hd := bytesVal_dropLast_getLast h
  by_contra hcon
  push_neg at hcon
  have : 2 ^ (8 * (l.length - 1)) * 2 ^ rb ≤ 2 ^ (8 * (l.length - 1)) * l.getLast h :=
    Nat.mul_le_mul_left _ hcon
  rw [← pow_add] at this
  omega

theorem add_mul_mod_pow {A B m k : Nat} (hA : A < 2 ^ m) :
    (A + 2 ^ m * B) % 2 ^ (m + k) = A + 2 ^ m * (B % 2 ^ k) := by
  have hB : B = B % 2 ^ k + 2 ^ k * (B / 2 ^ k) := (Nat.mod_add_div B (2 ^ k)).symm
  have hsum : A + 2 ^ m * B
      = (A + 2 ^ m * (B % 2 ^ k)) + 2 ^ (m + k) * (B / 2 ^ k) := by
    conv_lhs => rw [hB]
    rw [pow_add]; ring
  have hlt : A + 2 ^ m * (B % 2 ^ k) < 2 ^ (m + k) := by
    have h1 : B % 2 ^ k < 2 ^ k := Nat.mod_lt _ (Nat.two_pow_pos k)
    have h2 : 2 ^ m * (B % 2 ^ k) + 2 ^ m ≤ 2 ^ m * 2 ^ k := by
      have := Nat.mul_le_mul_left (2 ^ m) (Nat.succ_le_of_lt h1)
      simpa [Nat.mul_succ] using this
    rw [pow_add]
    omega
  rw [hsum, Nat.mul_comm (2 ^ (m + k)) _, Nat.add_mul_mod_self_right,
    Nat.mod_eq_of_lt hlt]

/-- `(x << s) as u8` keeps the low `8 - s` bits of `x` shifted up. -/
theorem shl_mod_256 {x s : Nat} (hs : s ≤ 8) :
    (x <<< s) % 256 = 2 ^ s * (x % 2 ^ (8 - s)) := by
  have h256 : (256 : Nat) = 2 ^ s * 2 ^ (8 - s) := by
    rw [← pow_add, show s + (8 - s) = 8 by omega]; norm_num
  rw [Nat.shiftLeft_eq, h256, Nat.mul_comm x (2 ^ s), Nat.mul_mod_mul_left]

theorem div_pow_lt {a r m : Nat} (ha : a < 2 ^ m) (hr : r ≤ m) :
    a >>> r < 2 ^ (m - r) := by
  rw [Nat.shiftRight_eq_div_pow]
  apply Nat.div_lt_of_lt_mul
  calc a < 2 ^ m := ha
    _ = 2 ^ r * 2 ^ (m - r) := by rw [← pow_add]; congr 1; omega

theorem calc_total_bytes_eq (t : Nat) : BitwiseData.calc_total_bytes t = (t + 7) / 8 := by
  unfold BitwiseData.calc_total_bytes align
  by_cases h : t = 0
  · simp [h]
  · simp only [h, if_true, ne_eq, not_false_iff, if_pos]
    omega

/-- Dividing out the bottom `r < 8` bits distributes over the byte
decomposition. -/
theorem shr_byte_split {r : Nat} (hr : r < 8) (A X : Nat) :
    (A + 256 * X) >>> r = A >>> r + 2 ^ (8 - r) * X := by
  have h8 : (2 : Nat) ^ 8 = 2 ^ (8 - r) * 2 ^ r := by
    rw [← pow_add]; congr 1; omega
  rw [Nat.shiftRight_eq_div_pow, Nat.shiftRight_eq_div_pow,
    show (256 : Nat) * X = 2 ^ (8 - r) * X * 2 ^ r by rw [show (256:Nat) = 2 ^ 8 by norm_num, h8]; ring,
    Nat.add_mul_div_right _ _ (Nat.two_pow_pos r)]

theorem combineList_spec {r : Nat} (hr : r < 8) :
    ∀ {l : List Nat}, (∀ x ∈ l, x < 256) →
      (combineList r l).length = l.length ∧
      (∀ x ∈ combineList r l, x < 256) ∧
      bytesVal (combineList r l) = bytesVal l >>> r := by
  intro l
  induction l with
  | nil =>
    intro _
    refine ⟨rfl, ?_, by simp [combineList]⟩
    intro x hx
    simp [combineList] at hx
  | cons a tail ih =>
    intro hmem
    have ha : a < 256 := hmem a (List.mem_cons_self _ _)
    have htail : ∀ x ∈ tail, x < 256 := fun x hx => hmem x (List.mem_cons_of_mem _ hx)
    cases tail with
    | nil =>
      refine ⟨rfl, ?_, by simp [combineList]⟩
      intro x hx
      simp only [combineList, List.mem_singleton] at hx
      subst hx
      calc a >>> r ≤ a := by
            rw [Nat.shiftRight_eq_div_pow]; exact Nat.div_le_self _ _
        _ < 256 := ha
    | cons b rest =>
      obtain ⟨ihlen, ihmem, ihval⟩ := ih htail
      have hb : b < 256 := htail b (List.mem_cons_self _ _)
      have hhead : (a >>> r) ||| ((b <<< (8 - r)) % 256)
          = (a + 256 * (b % 2 ^ r)) >>> r := by
        rw [shl_mod_256 (show 8 - r ≤ 8 by omega), show 8 - (8 - r) = r by omega,
          show (2:Nat) ^ (8 - r) * (b % 2 ^ r) = (b % 2 ^ r) <<< (8 - r) by
            rw [Nat.shiftLeft_eq]; ring,
          shr_or_shl (show a < 2 ^ 8 by norm_num [ha]) (by omega : r ≤ 8)]
        norm_num
      refine ⟨by simp [combineList, ihlen], ?_, ?_⟩
      · intro x hx
        simp only [combineList, List.mem_cons] at hx
        rcases hx with hx | hx
        · subst hx
          rw [hhead]
          have hz : b % 2 ^ r < 2 ^ r := Nat.mod_lt _ (Nat.two_pow_pos r)
          have hX : a + 256 * (b % 2 ^ r) < 2 ^ (8 + r) := by
            rw [pow_add]
            norm_num
            omega
          have := div_pow_lt hX (show r ≤ 8 + r by omega)
          rw [show 8 + r - r = 8 by omega] at this
          calc (a + 256 * (b % 2 ^ r)) >>> r < 2 ^ 8 := this
            _ = 256 := by norm_num
        · exact ihmem x hx
      · show ((a >>> r) ||| ((b <<< (8 - r)) % 256)) + 256 * bytesVal (combineList r (b :: rest))
            = bytesVal (a :: b :: rest) >>> r
        rw [hhead, ihval]
        have key : 2 ^ (8 - r) * b = 2 ^ (8 - r) * (b % 2 ^ r) + 256 * (b / 2 ^ r) := by
          conv_lhs => rw [← Nat.mod_add_div b (2 ^ r)]
          rw [Nat.mul_add, ← Nat.mul_assoc,
            show (2:Nat) ^ (8 - r) * 2 ^ r = 256 by
              rw [← pow_add, show 8 - r + r = 8 by omega]; norm_num]
        calc (a + 256 * (b % 2 ^ r)) >>> r + 256 * (bytesVal (b :: rest) >>> r)
            = a >>> r + 2 ^ (8 - r) * (b % 2 ^ r)
                + 256 * ((b + 256 * bytesVal rest) >>> r) := by
              rw [shr_byte_split hr]; rfl
          _ = a >>> r + 2 ^ (8 - r) * (b % 2 ^ r)
                + 256 * (b / 2 ^ r) + 256 * (2 ^ (8 - r) * bytesVal rest) := by
              rw [shr_byte_split hr, Nat.shiftRight_eq_div_pow b r]; ring
          _ = a >>> r + 2 ^ (8 - r) * b + 2 ^ (8 - r) * (256 * bytesVal rest) := by
              rw [key]; ring
          _ = a >>> r + 2 ^ (8 - r) * (b + 256 * bytesVal rest) := by ring
          _ = (a + 256 * (b + 256 * bytesVal rest)) >>> r := by
              rw [shr_byte_split hr]
          _ = bytesVal (a :: b :: rest) >>> r := by simp

example :
    ((BitwiseData.from_bytes [0xAB, 0xCD]).split 4).1.concat
        ((BitwiseData.from_bytes [0xAB, 0xCD]).split 4).2 =
      BitwiseData.from_bytes [0xAB, 0xCD] := by decide

/-- Full characterisation of `shift_data_to_front` on a buffer satisfying
the representation invariant: it computes `value >>> bits` packed into
exactly `ceil((total-bits)/8)` bytes. -/
theorem shift_front_spec {data : List Nat} {bits total : Nat}
    (hb : ∀ x ∈ data, x < 256)
    (hlen : data.length = BitwiseData.calc_total_bytes total)
    (hval : bytesVal data < 2 ^ total) :
    (shift_data_to_front data bits total).length
        = BitwiseData.calc_total_bytes (total - bits) ∧
    (∀ x ∈ shift_data_to_front data bits total, x < 256) ∧
    bytesVal (shift_data_to_front data bits total) = bytesVal data >>> bits := by
  unfold shift_data_to_front
  by_cases h0 : bits = 0
  · subst h0
    simp only [if_pos rfl]
    exact ⟨by simp [hlen], hb, by simp⟩
  · rw [if_neg h0]
    by_cases hge : total ≤ bits
    · rw [if_pos hge]
      have hz : bytesVal data >>> bits = 0 := by
        rw [Nat.shiftRight_eq_div_pow]
        exact Nat.div_eq_of_lt
          (lt_of_lt_of_le hval (Nat.pow_le_pow_right (by norm_num) hge))
      refine ⟨?_, by simp, by simp [hz]⟩
      have : total - bits = 0 := by omega
      simp [this, calc_total_bytes_eq]
    · rw [if_neg hge]
      have hklt : bits < total := by omega
      have hk3 : bits >>> 3 = bits / 8 := by
        rw [Nat.shiftRight_eq_div_pow]
      have hdb : ∀ x ∈ data.drop (bits >>> 3), x < 256 :=
        fun x hx => hb x (List.mem_of_mem_drop hx)
      have hdval : bytesVal (data.drop (bits >>> 3)) = bytesVal data / 2 ^ (8 * (bits / 8)) := by
        rw [hk3]; exact bytesVal_drop hb _
      have hdlen : (data.drop (bits >>> 3)).length
          = data.length - bits / 8 := by rw [hk3]; simp
      by_cases hr : bits % 8 = 0
      · rw [if_pos hr]
        refine ⟨?_, hdb, ?_⟩
        · rw [hdlen, hlen, calc_total_bytes_eq, calc_total_bytes_eq]
          omega
        · rw [hdval, Nat.shiftRight_eq_div_pow, show 8 * (bits / 8) = bits by omega]
      · rw [if_neg hr]
        have hr8 : bits % 8 < 8 := Nat.mod_lt _ (by norm_num)
        obtain ⟨hclen, hcmem, hcval⟩ := combineList_spec hr8 hdb
        set N := align (total - bits) 8 / 8 with hN
        have hNeq : N = BitwiseData.calc_total_bytes (total - bits) := rfl
        refine ⟨?_, ?_, ?_⟩
        · rw [List.length_take, hclen, hdlen, hlen, hNeq,
            calc_total_bytes_eq, calc_total_bytes_eq]
          omega
        · intro x hx
          exact hcmem x (List.mem_of_mem_take hx)
        · have hlt : bytesVal data >>> bits < 2 ^ (8 * N) := by
            have h1 : bytesVal data >>> bits < 2 ^ (total - bits) :=
              div_pow_lt hval (by omega)
            exact lt_of_lt_of_le h1
              (Nat.pow_le_pow_right (by norm_num)
                (by rw [hNeq, calc_total_bytes_eq]; omega))
          rw [bytesVal_take hcmem, hcval, hdval, ← Nat.shiftRight_eq_div_pow,
            ← Nat.shiftRight_add, show 8 * (bits / 8) + bits % 8 = bits by omega]
          exact Nat.mod_eq_of_lt hlt

/-- Masking the final byte to `rb` bits truncates the buffer value to
`8*(len-1) + rb` bits. -/
theorem maskLast_val {l : List Nat} (h : l ≠ []) (hb : ∀ x ∈ l, x < 256)
    {rb : Nat} (hrb : rb ≤ 8) :
    bytesVal (l.dropLast ++ [l.getLast h &&& mask8 rb])
      = bytesVal l % 2 ^ (8 * (l.length - 1) + rb) := by
  have hdl : ∀ x ∈ l.dropLast, x < 256 := fun x hx => hb x (List.mem_of_mem_dropLast hx)
  have hinit : bytesVal l.dropLast < 2 ^ (8 * (l.length - 1)) := by
    have := bytesVal_lt hdl
    rwa [List.length_dropLast] at this
  rw [bytesVal_append, List.length_dropLast]
  simp only [bytesVal_cons, bytesVal_nil]
  rw [mask8, Nat.and_pow_two_sub_one_eq_mod]
  conv_rhs => rw [bytesVal_dropLast_getLast h]
  rw [add_mul_mod_pow hinit]
  ring

theorem shrink_spec {d : BitwiseData} (hb : ∀ x ∈ d.data, x < 256)
    (hlen : BitwiseData.calc_total_bytes d.total_bits ≤ d.data.length) :
    d.shrink_to_fit.total_bits = d.total_bits ∧
    d.shrink_to_fit.data.length = BitwiseData.calc_total_bytes d.total_bits ∧
    (∀ x ∈ d.shrink_to_fit.data, x < 256) ∧
    bytesVal d.shrink_to_fit.data = bytesVal d.data % 2 ^ d.total_bits := by
  obtain ⟨data, t⟩ := d
  simp only at hb hlen ⊢
  set C := BitwiseData.calc_total_bytes t with hC
  have hLlen : (data.take C).length = C := by simp [hlen]
  have hLb : ∀ x ∈ data.take C, x < 256 := fun x hx => hb x (List.mem_of_mem_take hx)
  have hLval : bytesVal (data.take C) = bytesVal data % 2 ^ (8 * C) := bytesVal_take hb C
  unfold BitwiseData.shrink_to_fit BitwiseData.remove_residue BitwiseData.get_total_bytes
  simp only [← hC]
  by_cases hr : t % 8 = 0
  · have h8C : 8 * C = t := by rw [hC, calc_total_bytes_eq]; omega
    rw [if_pos hr]
    exact ⟨rfl, hLlen, hLb, by rw [hLval, h8C]⟩
  · rw [if_neg hr]
    have hCpos : 1 ≤ C := by rw [hC, calc_total_bytes_eq]; omega
    have hne : data.take C ≠ [] := by
      intro hcon; rw [hcon] at hLlen; simp at hLlen; omega
    rw [List.getLast?_eq_getLast _ hne]
    simp only
    have hsplit := maskLast_val hne hLb (show t % 8 ≤ 8 by omega)
    have harith : 8 * ((data.take C).length - 1) + t % 8 = t := by
      rw [hLlen, hC, calc_total_bytes_eq]; omega
    refine ⟨trivial, ?_, ?_, ?_⟩
    · simp only [List.length_append, List.length_dropLast, List.length_singleton, hLlen]
      omega
    · intro x hx
      rcases List.mem_append.mp hx with hx | hx
      · exact hLb x (List.mem_of_mem_dropLast hx)
      · simp only [List.mem_singleton] at hx
        subst hx
        calc (data.take C).getLast hne &&& mask8 (t % 8)
            ≤ (data.take C).getLast hne := Nat.and_le_left
          _ < 256 := hLb _ (List.getLast_mem hne)
    · rw [hsplit, harith, hLval, Nat.mod_mod_of_dvd _ (pow_dvd_pow 2 (by
        rw [hC, calc_total_bytes_eq]; omega))]

/-- On a buffer already satisfying the invariant, `shrink_to_fit` is the
identity. -/
theorem shrink_noop {d : BitwiseData} (hinv : BDInv d) : d.shrink_to_fit = d := by
  obtain ⟨hb, hlen, hval⟩ := hinv
  obtain ⟨data, t⟩ := d
  simp only at hb hlen hval ⊢
  unfold BitwiseData.shrink_to_fit BitwiseData.remove_residue BitwiseData.get_total_bytes
  simp only
  have htake : data.take (BitwiseData.calc_total_bytes t) = data := by
    rw [← hlen]; exact List.take_length data
  rw [htake]
  by_cases hr : t % 8 = 0
  · simp [hr]
  · rw [if_neg hr]
    have hCpos : 1 ≤ BitwiseData.calc_total_bytes t := by rw [calc_total_bytes_eq]; omega
    have hne : data ≠ [] := by
      intro hcon; rw [hcon] at hlen; simp at hlen; omega
    rw [List.getLast?_eq_getLast _ hne]
    simp only
    have hlast : data.getLast hne < 2 ^ (t % 8) := by
      apply getLast_lt_of_bytesVal_lt hne
      have : 8 * (data.length - 1) + t % 8 = t := by
        rw [hlen, calc_total_bytes_eq]; omega
      rwa [this]
    rw [mask8, Nat.and_pow_two_sub_one_eq_mod, Nat.mod_eq_of_lt hlast,
      List.dropLast_append_getLast hne]

theorem BitwiseData.eq_of {a b : BitwiseData} (h1 : a.data = b.data)
    (h2 : a.total_bits = b.total_bits) : a = b := by
  cases a; cases b; simp_all

theorem add_mul_pow_lt {A B m k : Nat} (hA : A < 2 ^ m) (hB : B < 2 ^ k) :
    A + 2 ^ m * B < 2 ^ (m + k) := by
  have h2 : 2 ^ m * B + 2 ^ m ≤ 2 ^ m * 2 ^ k := by
    have := Nat.mul_le_mul_left (2 ^ m) (Nat.succ_le_of_lt hB)
    simpa [Nat.mul_succ] using this
  rw [pow_add]
  omega

/-- Masking the final byte to the residue width is a no-op on a buffer
already satisfying the invariant. -/
theorem maskLast_noop {l : List Nat} (hne : l ≠ []) {t : Nat}
    (hlen : l.length = BitwiseData.calc_total_bytes t)
    (hval : bytesVal l < 2 ^ t) (hr : t % 8 ≠ 0) :
    l.dropLast ++ [l.getLast hne &&& mask8 (t % 8)] = l := by
  have hlast : l.getLast hne < 2 ^ (t % 8) := by
    apply getLast_lt_of_bytesVal_lt hne
    have harith : 8 * (l.length - 1) + t % 8 = t := by
      rw [hlen, calc_total_bytes_eq]; omega
    rwa [harith]
  rw [mask8, Nat.and_pow_two_sub_one_eq_mod, Nat.mod_eq_of_lt hlast,
    List.dropLast_append_getLast hne]

/-- Full characterisation of `BitwiseData::split` under the invariant,
for `k ≤ total_bits`: the front holds the low `k` bits, the back the
remaining high bits, and both satisfy the invariant. -/
theorem split_spec {d : BitwiseData} (hinv : BDInv d) {k : Nat}
    (hk : k ≤ d.total_bits) :
    (d.split k).1.total_bits = k ∧
    (d.split k).2.total_bits = d.total_bits - k ∧
    BDInv (d.split k).1 ∧ BDInv (d.split k).2 ∧
    bytesVal (d.split k).1.data = bytesVal d.data % 2 ^ k ∧
    bytesVal (d.split k).2.data = bytesVal d.data >>> k := by
  obtain ⟨hb, hlen, hval⟩ := hinv
  unfold BitwiseData.split
  by_cases h0 : k = 0
  · subst h0
    rw [if_pos rfl]
    refine ⟨rfl, by simp, ?_, ⟨hb, hlen, hval⟩, by simp [BitwiseData.dflt, Nat.mod_one], by simp⟩
    exact ⟨by simp [BitwiseData.dflt], by simp [BitwiseData.dflt, BitwiseData.calc_total_bytes, align],
      by simp [BitwiseData.dflt]⟩
  · rw [if_neg h0]
    by_cases hge : d.total_bits ≤ k
    · have hkt : k = d.total_bits := by omega
      rw [if_pos hge]
      subst hkt
      refine ⟨rfl, by simp [BitwiseData.dflt], ⟨hb, hlen, hval⟩, ?_, ?_, ?_⟩
      · exact ⟨by simp [BitwiseData.dflt], by simp [BitwiseData.dflt, BitwiseData.calc_total_bytes, align],
          by simp [BitwiseData.dflt]⟩
      · simp [Nat.mod_eq_of_lt hval]
      · simp [BitwiseData.dflt, Nat.shiftRight_eq_div_pow, Nat.div_eq_of_lt hval]
    · rw [if_neg hge]
      simp only
      -- the front part: shrink to k bits (the extra mask is a no-op)
      have hlenk : BitwiseData.calc_total_bytes k ≤ d.data.length := by
        rw [hlen, calc_total_bytes_eq, calc_total_bytes_eq]; omega
      obtain ⟨hst, hsl, hsb, hsv⟩ :=
        shrink_spec (d := { d with total_bits := k }) hb hlenk
      simp only at hst hsl hsv
      set S := BitwiseData.shrink_to_fit { d with total_bits := k } with hS
      rw [hst]
      have hvmod : bytesVal S.data < 2 ^ k := by
        rw [hsv]; exact Nat.mod_lt _ (Nat.two_pow_pos k)
      have hfront :
          (if k % 8 ≠ 0 then
            match S.data.getLast? with
            | none => S
            | some last_byte =>
                ({ data := S.data.dropLast ++ [last_byte &&& mask8 (k % 8)],
                   total_bits := k } : BitwiseData)
          else S) = S := by
        by_cases hr : k % 8 = 0
        · simp [hr]
        · rw [if_pos hr]
          have hCpos : 1 ≤ BitwiseData.calc_total_bytes k := by
            rw [calc_total_bytes_eq]; omega
          have hne : S.data ≠ [] := by
            intro hcon; rw [hcon] at hsl; simp at hsl; omega
          rw [List.getLast?_eq_getLast _ hne]
          simp only
          exact BitwiseData.eq_of (maskLast_noop hne hsl hvmod hr) hst.symm
      rw [hfront]
      obtain ⟨hfl, hfb, hfv⟩ := @shift_front_spec _ k _ hb hlen hval
      refine ⟨hst, by trivial, ⟨hsb, by rw [hsl, hst], by rw [hst]; exact hvmod⟩,
        ⟨hfb, hfl, ?_⟩, by rw [hsv], hfv⟩
      rw [hfv]
      exact div_pow_lt hval (by omega)

/-- Full characterisation of `BitwiseData::concat` under the invariant. -/
theorem concat_spec {d rhs : BitwiseData} (hd : BDInv d) (hr : BDInv rhs) :
    (d.concat rhs).total_bits = d.total_bits + rhs.total_bits ∧
    BDInv (d.concat rhs) ∧
    bytesVal (d.concat rhs).data
      = bytesVal d.data + 2 ^ d.total_bits * bytesVal rhs.data := by
  obtain ⟨hdb, hdl, hdv⟩ := hd
  obtain ⟨hrb, hrl, hrv⟩ := hr
  unfold BitwiseData.concat
  by_cases h0 : rhs.total_bits = 0
  · rw [if_pos h0]
    have : bytesVal rhs.data = 0 := by rw [h0] at hrv; omega
    rw [this]
    exact ⟨by omega, ⟨hdb, hdl, hdv⟩, by ring⟩
  · rw [if_neg h0]
    rw [shrink_noop ⟨hdb, hdl, hdv⟩]
    simp only
    by_cases hs : d.total_bits % 8 = 0
    · rw [if_pos hs]
      have h8l : 8 * d.data.length = d.total_bits := by
        rw [hdl, calc_total_bytes_eq]; omega
      refine ⟨by trivial, ⟨?_, ?_, ?_⟩, ?_⟩
      · intro x hx
        rcases List.mem_append.mp hx with hx | hx
        · exact hdb x hx
        · exact hrb x hx
      · simp only [List.length_append, hdl, hrl, calc_total_bytes_eq]
        omega
      · simp only [bytesVal_append, h8l]
        exact add_mul_pow_lt hdv hrv
      · simp only [bytesVal_append, h8l]
    · rw [if_neg hs]
      have hdpos : 1 ≤ d.data.length := by
        rw [hdl, calc_total_bytes_eq]; omega
      have hdne : d.data ≠ [] := by
        intro hcon; rw [hcon] at hdpos; simp at hdpos
      have hrpos : 1 ≤ rhs.data.length := by
        rw [hrl, calc_total_bytes_eq]; omega
      obtain ⟨h0', tail', hrhs⟩ : ∃ x t, rhs.data = x :: t := by
        cases hx : rhs.data with
        | nil => rw [hx] at hrpos; simp at hrpos
        | cons x t => exact ⟨x, t, rfl⟩
      rw [List.getLast?_eq_getLast _ hdne]
      simp only
      have hs8 : d.total_bits % 8 < 8 := Nat.mod_lt _ (by norm_num)
      have hT1 : 8 * (d.data.length - 1) + d.total_bits % 8 = d.total_bits := by
        rw [hdl, calc_total_bytes_eq]; omega
      have hlast : d.data.getLast hdne < 2 ^ (d.total_bits % 8) := by
        apply getLast_lt_of_bytesVal_lt hdne
        rwa [hT1]
      -- the merged byte
      have hhead0 : rhs.data.headD 0 = h0' := by rw [hrhs]; rfl
      have hmerge : d.data.getLast hdne ||| ((rhs.data.headD 0 <<< (d.total_bits % 8)) % 256)
          = d.data.getLast hdne
            + 2 ^ (d.total_bits % 8) * (bytesVal rhs.data % 2 ^ (8 - d.total_bits % 8)) := by
        rw [hhead0, shl_mod_256 (by omega : d.total_bits % 8 ≤ 8)]
        have hmod : h0' % 2 ^ (8 - d.total_bits % 8)
            = bytesVal rhs.data % 2 ^ (8 - d.total_bits % 8) := by
          rw [hrhs, bytesVal_cons,
            show (256 : Nat) * bytesVal tail'
              = 2 ^ (8 - d.total_bits % 8) * (2 ^ (d.total_bits % 8) * bytesVal tail') by
                rw [← Nat.mul_assoc, ← pow_add,
                  show 8 - d.total_bits % 8 + d.total_bits % 8 = 8 by omega]
                norm_num,
            Nat.add_mul_mod_self_left]
        rw [← hmod, Nat.lor_comm, ← Nat.mul_add_lt_is_or hlast]
        ring
      -- value of the merged front
      have hmerged_val :
          bytesVal (d.data.dropLast
              ++ [d.data.getLast hdne ||| ((rhs.data.headD 0 <<< (d.total_bits % 8)) % 256)])
            = bytesVal d.data
              + 2 ^ d.total_bits * (bytesVal rhs.data % 2 ^ (8 - d.total_bits % 8)) := by
        rw [bytesVal_append, hmerge]
        simp only [bytesVal_cons, bytesVal_nil, List.length_dropLast]
        conv_rhs => rw [bytesVal_dropLast_getLast hdne]
        rw [show (2:Nat) ^ d.total_bits
            = 2 ^ (8 * (d.data.length - 1)) * 2 ^ (d.total_bits % 8) by
          rw [← pow_add, hT1]]
        ring
      obtain ⟨htl, htb, htv⟩ := @shift_front_spec _ (8 - d.total_bits % 8) _ hrb hrl hrv
      have hmlen : (d.data.dropLast
          ++ [d.data.getLast hdne ||| ((rhs.data.headD 0 <<< (d.total_bits % 8)) % 256)]).length
            = d.data.length := by
        simp only [List.length_append, List.length_dropLast, List.length_singleton]
        omega
      have h8L : 8 * d.data.length = d.total_bits + (8 - d.total_bits % 8) := by
        rw [hdl, calc_total_bytes_eq]; omega
      have hfull : bytesVal ((d.data.dropLast
            ++ [d.data.getLast hdne ||| ((rhs.data.headD 0 <<< (d.total_bits % 8)) % 256)])
            ++ shift_data_to_front rhs.data (8 - d.total_bits % 8) rhs.total_bits)
          = bytesVal d.data + 2 ^ d.total_bits * bytesVal rhs.data := by
        rw [bytesVal_append, hmerged_val, htv, hmlen, h8L, pow_add,
          Nat.shiftRight_eq_div_pow]
        conv_rhs =>
          rw [← Nat.mod_add_div (bytesVal rhs.data) (2 ^ (8 - d.total_bits % 8))]
        ring
      refine ⟨by trivial, ⟨?_, ?_, ?_⟩, hfull⟩
      · intro x hx
        rcases List.mem_append.mp hx with hx | hx
        · rcases List.mem_append.mp hx with hx | hx
          · exact hdb x (List.mem_of_mem_dropLast hx)
          · simp only [List.mem_singleton] at hx
            subst hx
            rw [hmerge]
            have hm : bytesVal rhs.data % 2 ^ (8 - d.total_bits % 8)
                < 2 ^ (8 - d.total_bits % 8) :=
              Nat.mod_lt _ (Nat.two_pow_pos _)
            have hcomb := add_mul_pow_lt hlast hm
            calc _ < 2 ^ (d.total_bits % 8 + (8 - d.total_bits % 8)) := hcomb
              _ = 256 := by
                rw [show d.total_bits % 8 + (8 - d.total_bits % 8) = 8 by omega]
                norm_num
        · exact htb x hx
      · simp only [List.length_append, List.length_dropLast, List.length_singleton, htl]
        rw [calc_total_bytes_eq, calc_total_bytes_eq]
        have hLv : d.data.length = (d.total_bits + 7) / 8 := by
          rw [hdl, calc_total_bytes_eq]
        omega
      · rw [hfull]
        exact add_mul_pow_lt hdv hrv

theorem BDInv_dflt : BDInv BitwiseData.dflt := by
  refine ⟨by simp [BitwiseData.dflt], ?_, by simp [BitwiseData.dflt]⟩
  simp [BitwiseData.dflt, BitwiseData.calc_total_bytes, align]

/-- C3: for every `BitwiseData` satisfying the representation invariant
and every `k ≤ total_bits`, `split(k)` yields a front of `k` bits and a
back of `total_bits - k` bits whose concatenation reproduces the original
bit-for-bit (equal data bytes and equal `total_bits`); `k = 0` yields an
empty front and `k ≥ total_bits` yields an empty back. -/
theorem C3_bitwisedata_split_concat_roundtrip (d : BitwiseData) (hinv : BDInv d)
    (k : Nat) (hk : k ≤ d.total_bits) :
    (d.split k).1.total_bits = k ∧
    (d.split k).2.total_bits = d.total_bits - k ∧
    (d.split k).1.concat (d.split k).2 = d ∧
    (k = 0 → (d.split k).1 = BitwiseData.dflt) ∧
    (d.total_bits ≤ k → (d.split k).2 = BitwiseData.dflt) := by
  obtain ⟨h1, h2, hi1, hi2, hv1, hv2⟩ := split_spec hinv hk
  obtain ⟨hb, hlen, hval⟩ := hinv
  refine ⟨h1, h2, ?_, ?_, ?_⟩
  · obtain ⟨hct, hcinv, hcv⟩ := concat_spec hi1 hi2
    refine BitwiseData.eq_of ?_ (by rw [hct, h1, h2]; omega)
    apply bytesVal_inj hcinv.1 hb
    · rw [hcinv.2.1, hlen, hct, h1, h2]
      congr 1
      omega
    · rw [hcv, hv1, hv2, h1, Nat.shiftRight_eq_div_pow]
      exact Nat.mod_add_div _ _
  · intro hz
    subst hz
    rw [BitwiseData.split, if_pos rfl]
  · intro hge
    rw [BitwiseData.split]
    by_cases h0 : k = 0
    · rw [if_pos h0]
      have ht0 : d.total_bits = 0 := by omega
      have hd0 : d.data = [] := by
        have := hlen
        rw [ht0] at this
        simp [BitwiseData.calc_total_bytes, align] at this
        exact this
      exact BitwiseData.eq_of (by rw [hd0]; rfl) (by rw [ht0]; rfl)
    · rw [if_neg h0, if_pos hge]

/-- Witness for `C3_bitwisedata_split_concat_roundtrip` on a concrete
buffer split at a non-byte-aligned position. -/
theorem C3_bitwisedata_split_concat_roundtrip_witness :
    BDInv (BitwiseData.from_bytes [0xAB, 0xCD]) ∧
    ((BitwiseData.from_bytes [0xAB, 0xCD]).split 5).1.concat
        ((BitwiseData.from_bytes [0xAB, 0xCD]).split 5).2
      = BitwiseData.from_bytes [0xAB, 0xCD] :=
  ⟨by decide,
   (C3_bitwisedata_split_concat_roundtrip (BitwiseData.from_bytes [0xAB, 0xCD])
     (by decide) 5 (by decide)).2.2.1⟩

/-- C9: every `BitwiseData` constructor and mutating operation (`new`,
`from_bytes`, `split`, `concat`, `shrink_to_fit`) establishes or preserves
the representation invariant `data.len() == ceil(total_bits/8)` with all
bits beyond `total_bits` zero (`BDInv`). -/
theorem C9_bitwisedata_operations_preserve_invariant :
    (∀ (data : List Nat) (total : Nat), (∀ x ∈ data, x < 256) →
      total ≤ 8 * data.length → BDInv (BitwiseData.new data total)) ∧
    (∀ data : List Nat, (∀ x ∈ data, x < 256) → BDInv (BitwiseData.from_bytes data)) ∧
    (∀ (d : BitwiseData) (k : Nat), BDInv d →
      BDInv (d.split k).1 ∧ BDInv (d.split k).2) ∧
    (∀ d rhs : BitwiseData, BDInv d → BDInv rhs → BDInv (d.concat rhs)) ∧
    (∀ d : BitwiseData, BDInv d → BDInv d.shrink_to_fit) := by
  refine ⟨?_, ?_, ?_, ?_, ?_⟩
  · intro data total hb htot
    have heq : BitwiseData.new data total
        = BitwiseData.shrink_to_fit { data := data, total_bits := total } := rfl
    have hlenk : BitwiseData.calc_total_bytes total ≤ data.length := by
      rw [calc_total_bytes_eq]; omega
    obtain ⟨hst, hsl, hsb, hsv⟩ :=
      shrink_spec (d := { data := data, total_bits := total }) hb hlenk
    rw [heq]
    exact ⟨hsb, by rw [hsl, hst], by
      rw [hsv, hst]; exact Nat.mod_lt _ (Nat.two_pow_pos _)⟩
  · intro data hb
    refine ⟨hb, ?_, ?_⟩
    · simp only [BitwiseData.from_bytes, calc_total_bytes_eq]
      omega
    · simp only [BitwiseData.from_bytes]
      have := bytesVal_lt hb
      rwa [Nat.mul_comm] at this
  · intro d k hinv
    by_cases hk : k ≤ d.total_bits
    · obtain ⟨_, _, hi1, hi2, _, _⟩ := split_spec hinv hk
      exact ⟨hi1, hi2⟩
    · rw [BitwiseData.split, if_neg (by omega), if_pos (by omega)]
      exact ⟨hinv, BDInv_dflt⟩
  · intro d rhs hd hr
    exact (concat_spec hd hr).2.1
  · intro d hinv
    rw [shrink_noop hinv]
    exact hinv

/-- Witness for `C9_bitwisedata_operations_preserve_invariant` at concrete
inputs. -/
theorem C9_bitwisedata_operations_preserve_invariant_witness :
    BDInv (BitwiseData.new [0xAB, 0xCD] 13) ∧
    BDInv ((BitwiseData.from_bytes [0xAB]).concat (BitwiseData.from_bytes [0xCD])) :=
  ⟨C9_bitwisedata_operations_preserve_invariant.1 [0xAB, 0xCD] 13 (by decide) (by decide),
   C9_bitwisedata_operations_preserve_invariant.2.2.2.1
     (BitwiseData.from_bytes [0xAB]) (BitwiseData.from_bytes [0xCD])
     (by decide) (by decide)⟩

/-! ## codebook.rs: make_words

`make_words(lengthlist, n, sparsecount)` builds the Huffman codewords for a
length list.  `lengthlist` holds `i8` values (modelled as `Int`), `n` and
`sparsecount` are the Rust `i32` arguments after the `as usize` cast (the
repository only calls `make_words` with nonnegative `n`/`sparsecount`, for
which the cast is the identity, so both are modelled as `Nat`).  Vector
indexing that can go out of bounds is modelled by `vget`/`vset`, which
return `Err.panic` exactly when Rust would panic.  `u32` arithmetic wraps
modulo `2^32`. -/

def i8AsUsize (v : Int) : Nat := (v % (2 ^ 64 : Int)).toNat

def vget {α : Type} (l : List α) (i : Nat) : Except Err α :=
  match l.get? i with
  | some x => .ok x
  | none => .error .panic

def vset {α : Type} (l : List α) (i : Nat) (x : α) : Except Err (List α) :=
  if i < l.length then .ok (l.set i x) else .error .panic

/-- The `for j in (1..length + 1).rev()` loop of `make_words`: the argument
counts `j` down from `length` to `1`. -/
def mw_up (marker : List Nat) : Nat → List Nat
  | 0 => marker
  | j + 1 =>
    if (marker.getD (j + 1) 0) % 2 ≠ 0 then
      if j + 1 = 1 then marker.set 1 ((marker.getD 1 0 + 1) % 2 ^ 32)
      else marker.set (j + 1) ((marker.getD j 0 * 2) % 2 ^ 32)
    else mw_up (marker.set (j + 1) ((marker.getD (j + 1) 0 + 1) % 2 ^ 32)) j

/-- The `for j in (length + 1)..33` pruning loop of `make_words`; `fuel ≥ 33`
covers every iteration (`j` only grows and the loop stops at `j = 33`). -/
def mw_prune (marker : List Nat) (entry j : Nat) : Nat → List Nat
  | 0 => marker
  | fuel + 1 =>
    if j < 33 then
      if (marker.getD j 0) / 2 = entry then
        mw_prune (marker.set j ((marker.getD (j - 1) 0 * 2) % 2 ^ 32))
          (marker.getD j 0) (j + 1) fuel
      else marker
    else marker

/-- First pass of `make_words` (`for i in 0..n`), peeling `lengthlist` one
entry per index; `lengthlist[i]` out of bounds is the Rust index panic.
Returns `(count, marker, ret)`. -/
def mw_pass1 (sparse : Bool) :
    List Int → Nat → Nat → List Nat → List Nat →
      Except Err (Nat × List Nat × List Nat)
  | _, 0, count, marker, ret => .ok (count, marker, ret)
  | [], _ + 1, _, _, _ => .error .panic
  | lv :: rest, n + 1, count, marker, ret => do
    let length := i8AsUsize lv
    if length > 0 then do
      let entry ← vget marker length
      if length < 32 ∧ entry >>> length ≠ 0 then .error .invalidData
      else do
        let ret2 ← vset ret count entry
        mw_pass1 sparse rest n (count + 1)
          (mw_prune (mw_up marker length) entry (length + 1) 33) ret2
    else
      mw_pass1 sparse rest n (if sparse then count else count + 1) marker ret

/-- The underpopulation check `marker[i] & (0xffffffff >> (32 - i)) != 0`
for some `i` in `1..33`. -/
def mw_underpopulated (marker : List Nat) : Bool :=
  (List.range 32).any fun k =>
    (marker.getD (k + 1) 0) &&& ((2 ^ 32 - 1) >>> (32 - (k + 1))) != 0

/-- The inner bit-reversal loop: `temp <<= 1; temp |= (w >> j) & 1` for
`j in 0..len` (a `u32`, so the shift wraps modulo `2^32`). -/
def mw_revGo (w temp j : Nat) : Nat → Nat
  | 0 => temp
  | fuel + 1 => mw_revGo w (temp * 2 % 2 ^ 32 + (w >>> j) % 2) (j + 1) fuel

def mw_rev (w len : Nat) : Nat := mw_revGo w 0 0 len

/-- Second pass of `make_words`: bitreverse each stored word (and compact
when sparse). Returns `(count, ret)`. -/
def mw_pass2 (sparse : Bool) :
    List Int → Nat → Nat → List Nat → Except Err (Nat × List Nat)
  | _, 0, count, ret => .ok (count, ret)
  | [], _ + 1, _, _ => .error .panic
  | lv :: rest, n + 1, count, ret => do
    let length := i8AsUsize lv
    if length > 0 then do
      let w ← vget ret count
      let ret2 ← vset ret count (mw_rev w length)
      mw_pass2 sparse rest n (count + 1) ret2
    else
      if sparse then mw_pass2 sparse rest n count ret
      else do
        let ret2 ← vset ret count 0
        mw_pass2 sparse rest n (count + 1) ret2

def make_words (ll : List Int) (n sparsecount : Nat) : Except Err (List Nat) := do
  let sparse := sparsecount != 0
  let size := if sparse then sparsecount else n
  let (count, marker, ret) ←
    mw_pass1 sparse ll n 0 (List.replicate 33 0) (List.replicate size 0)
  if ¬(count = 1 ∧ marker.getD 2 0 = 2) ∧ mw_underpopulated marker = true then
    .error .invalidData
  else do
    let (_, ret2) ← mw_pass2 sparse ll n 0 ret
    .ok ret2

example : make_words [1] 1 0 = .ok [0] := by decide
example : make_words [1, 1] 2 0 = .ok [0, 1] := by decide
example : make_words [1, 0] 2 0 = .error .invalidData := by decide
example : make_words [1, 0] 2 2 = .ok [0, 0] := by decide
example : make_words [1, 1, 1] 3 0 = .error .invalidData := by decide
example : make_words [1, 2, 2] 3 0 = .ok [0, 1, 3] := by decide
example : make_words [2, 1, 2] 3 0 = .ok [0, 1, 2] := by decide

/-- The marker state after claiming the single length-1 entry of a
one-used-entry codebook: `marker[1] = 1` and `marker[j] = 2^(j-1)` for
`j = 2..32` (the pruning cascade). -/
def markerOne : List Nat :=
  [0, 1, 2, 4, 8, 16, 32, 64, 128, 256, 512, 1024, 2048, 4096, 8192, 16384,
   32768, 65536, 131072, 262144, 524288, 1048576, 2097152, 4194304, 8388608,
   16777216, 33554432, 67108864, 134217728, 268435456, 536870912, 1073741824,
   2147483648]

theorem markerOne_eq :
    mw_prune (mw_up (List.replicate 33 0) 1) 0 2 33 = markerOne := by decide

theorem markerOne_underpop : mw_underpopulated markerOne = true := by decide

theorem vget_ok {α : Type} [Inhabited α] {l : List α} {i : Nat} (h : i < l.length) :
    vget l i = .ok (l.getD i default) := by
  unfold vget
  rw [List.get?_eq_get h]
  simp [List.getD_eq_getElem?_getD, List.getElem?_eq_getElem h, List.get_eq_getElem]

theorem vget_okN {l : List Nat} {i : Nat} (h : i < l.length) :
    vget l i = .ok (l.getD i 0) := vget_ok h

theorem vset_ok {α : Type} {l : List α} {i : Nat} (h : i < l.length) (x : α) :
    vset l i x = .ok (l.set i x) := by
  unfold vset
  rw [if_pos h]

theorem getD_set_self {l : List Nat} {i : Nat} (v : Nat) (h : i < l.length) :
    (l.set i v).getD i 0 = v := by
  induction l generalizing i with
  | nil => simp at h
  | cons a t ih =>
    cases i with
    | zero => rfl
    | succ j => simpa using ih (by simpa using h)

theorem getD_set_other (l : List Nat) (i j : Nat) (v : Nat) (h : i ≠ j) :
    (l.set i v).getD j 0 = l.getD j 0 := by
  induction l generalizing i j with
  | nil => simp
  | cons a t ih =>
    cases i with
    | zero => cases j with
      | zero => exact absurd rfl h
      | succ k => rfl
    | succ i0 => cases j with
      | zero => rfl
      | succ k => simpa using ih i0 k (by omega)

theorem set_replicate_self {α : Type} (a : α) (n i : Nat) :
    (List.replicate n a).set i a = List.replicate n a := by
  induction n generalizing i with
  | zero => rfl
  | succ m ih =>
    cases i with
    | zero => rfl
    | succ j => simp [List.replicate_succ, List.set, ih]

/-- Zero-length entries leave `mw_pass1` state untouched except the dense
count. -/
theorem mw_pass1_zeros (sparse : Bool) (zs : List Int)
    (h : ∀ x ∈ zs, x = 0) (count : Nat) (marker ret : List Nat) :
    mw_pass1 sparse zs zs.length count marker ret
      = .ok ((if sparse then count else count + zs.length), marker, ret) := by
  induction zs generalizing count with
  | nil => cases sparse <;> simp [mw_pass1]
  | cons z rest ih =>
    have hz : z = 0 := h z (by simp)
    subst hz
    have hr : ∀ x ∈ rest, x = 0 := fun x hx => h x (by simp [hx])
    show mw_pass1 sparse (0 :: rest) (rest.length + 1) count marker ret = _
    rw [show mw_pass1 sparse (0 :: rest) (rest.length + 1) count marker ret
        = mw_pass1 sparse rest rest.length
            (if sparse then count else count + 1) marker ret from rfl]
    rw [ih hr]
    cases sparse <;> simp <;> omega

/-- Processing the unique length-1 entry of a one-used-entry list from the
initial marker state (sparse mode): only the used entry advances the count,
and the marker ends in the `markerOne` cascade state. -/
theorem mw_pass1_single1_sparse (zs1 zs2 : List Int)
    (h1 : ∀ x ∈ zs1, x = 0) (h2 : ∀ x ∈ zs2, x = 0)
    (count : Nat) (ret : List Nat) (hcnt : count < ret.length) :
    mw_pass1 true (zs1 ++ 1 :: zs2) (zs1 ++ 1 :: zs2).length count
        (List.replicate 33 0) ret
      = .ok (count + 1, markerOne, ret.set count 0) := by
  induction zs1 with
  | nil =>
    have hstep : mw_pass1 true ((1 : Int) :: zs2) (zs2.length + 1) count
        (List.replicate 33 0) ret
        = (vget (List.replicate 33 (0 : Nat)) 1) >>= fun entry =>
            if (1 : Nat) < 32 ∧ entry >>> 1 ≠ 0 then .error .invalidData
            else
              (vset ret count entry) >>= fun ret2 =>
                mw_pass1 true zs2 zs2.length (count + 1)
                  (mw_prune (mw_up (List.replicate 33 0) 1) entry 2 33) ret2 := rfl
    show mw_pass1 true ((1 : Int) :: zs2) (zs2.length + 1) count
        (List.replicate 33 0) ret = _
    rw [hstep]
    have hg : vget (List.replicate 33 (0 : Nat)) 1 = .ok 0 := by decide
    rw [hg]
    simp only [bind_ok_eq]
    rw [if_neg (by simp), vset_ok hcnt 0]
    simp only [bind_ok_eq, markerOne_eq]
    rw [mw_pass1_zeros true zs2 h2]
    simp
  | cons z t ih =>
    have hz : z = 0 := h1 z (by simp)
    subst hz
    have ht : ∀ x ∈ t, x = 0 := fun x hx => h1 x (by simp [hx])
    show mw_pass1 true ((0 : Int) :: (t ++ 1 :: zs2)) ((t ++ 1 :: zs2).length + 1)
        count (List.replicate 33 0) ret = _
    rw [show mw_pass1 true ((0 : Int) :: (t ++ 1 :: zs2))
        ((t ++ 1 :: zs2).length + 1) count (List.replicate 33 0) ret
        = mw_pass1 true (t ++ 1 :: zs2) (t ++ 1 :: zs2).length count
            (List.replicate 33 0) ret from rfl]
    exact ih ht

/-- Dense-mode counterpart of `mw_pass1_single1_sparse`: every entry
advances the count. -/
theorem mw_pass1_single1_dense (zs1 zs2 : List Int)
    (h1 : ∀ x ∈ zs1, x = 0) (h2 : ∀ x ∈ zs2, x = 0)
    (count : Nat) (ret : List Nat) (hcnt : count + zs1.length < ret.length) :
    mw_pass1 false (zs1 ++ 1 :: zs2) (zs1 ++ 1 :: zs2).length count
        (List.replicate 33 0) ret
      = .ok (count + zs1.length + 1 + zs2.length, markerOne,
             ret.set (count + zs1.length) 0) := by
  induction zs1 generalizing count with
  | nil =>
    have hstep : mw_pass1 false ((1 : Int) :: zs2) (zs2.length + 1) count
        (List.replicate 33 0) ret
        = (vget (List.replicate 33 (0 : Nat)) 1) >>= fun entry =>
            if (1 : Nat) < 32 ∧ entry >>> 1 ≠ 0 then .error .invalidData
            else
              (vset ret count entry) >>= fun ret2 =>
                mw_pass1 false zs2 zs2.length (count + 1)
                  (mw_prune (mw_up (List.replicate 33 0) 1) entry 2 33) ret2 := rfl
    show mw_pass1 false ((1 : Int) :: zs2) (zs2.length + 1) count
        (List.replicate 33 0) ret = _
    rw [hstep]
    have hg : vget (List.replicate 33 (0 : Nat)) 1 = .ok 0 := by decide
    rw [hg]
    simp only [bind_ok_eq]
    have hc : count < ret.length := by simpa using hcnt
    rw [if_neg (by simp), vset_ok hc 0]
    simp only [bind_ok_eq, markerOne_eq]
    rw [mw_pass1_zeros false zs2 h2]
    simp
  | cons z t ih =>
    have hz : z = 0 := h1 z (by simp)
    subst hz
    have ht : ∀ x ∈ t, x = 0 := fun x hx => h1 x (by simp [hx])
    show mw_pass1 false ((0 : Int) :: (t ++ 1 :: zs2)) ((t ++ 1 :: zs2).length + 1)
        count (List.replicate 33 0) ret = _
    rw [show mw_pass1 false ((0 : Int) :: (t ++ 1 :: zs2))
        ((t ++ 1 :: zs2).length + 1) count (List.replicate 33 0) ret
        = mw_pass1 false (t ++ 1 :: zs2) (t ++ 1 :: zs2).length (count + 1)
            (List.replicate 33 0) ret from rfl]
    rw [ih ht (count + 1) (by simp only [List.length_cons] at hcnt; omega)]
    have e1 : count + 1 + t.length = count + (t.length + 1) := by omega
    simp only [List.length_cons, e1]

/-- Zero-length entries are skipped entirely by the sparse second pass. -/
theorem mw_pass2_zeros_sparse (zs : List Int) (h : ∀ x ∈ zs, x = 0)
    (count : Nat) (ret : List Nat) :
    mw_pass2 true zs zs.length count ret = .ok (count, ret) := by
  induction zs with
  | nil => simp [mw_pass2]
  | cons z rest ih =>
    have hz : z = 0 := h z (by simp)
    subst hz
    have hr : ∀ x ∈ rest, x = 0 := fun x hx => h x (by simp [hx])
    show mw_pass2 true (0 :: rest) (rest.length + 1) count ret = _
    rw [show mw_pass2 true (0 :: rest) (rest.length + 1) count ret
        = mw_pass2 true rest rest.length count ret from rfl]
    exact ih hr

theorem vget_replicate_zero {sp : Nat} (hsp : 0 < sp) :
    vget (List.replicate sp (0 : Nat)) 0 = .ok 0 := by
  cases sp with
  | zero => exact absurd hsp (by simp)
  | succ n => rfl

/-- Sparse second pass over a one-used-entry list: the single length-1 word
`0` bitreverses to `0`, so the all-zero buffer is returned unchanged. -/
theorem mw_pass2_single1_sparse (zs1 zs2 : List Int)
    (h1 : ∀ x ∈ zs1, x = 0) (h2 : ∀ x ∈ zs2, x = 0)
    (sp : Nat) (hsp : 0 < sp) :
    mw_pass2 true (zs1 ++ 1 :: zs2) (zs1 ++ 1 :: zs2).length 0
        (List.replicate sp 0)
      = .ok (1, List.replicate sp 0) := by
  induction zs1 with
  | nil =>
    have hstep : mw_pass2 true ((1 : Int) :: zs2) (zs2.length + 1) 0
        (List.replicate sp 0)
        = (vget (List.replicate sp (0 : Nat)) 0) >>= fun w =>
            (vset (List.replicate sp (0 : Nat)) 0 (mw_rev w 1)) >>= fun ret2 =>
              mw_pass2 true zs2 zs2.length 1 ret2 := rfl
    show mw_pass2 true ((1 : Int) :: zs2) (zs2.length + 1) 0
        (List.replicate sp 0) = _
    rw [hstep, vget_replicate_zero hsp]
    simp only [bind_ok_eq]
    rw [show mw_rev 0 1 = 0 from rfl,
      vset_ok (by simpa using hsp) 0, set_replicate_self]
    simp only [bind_ok_eq]
    exact mw_pass2_zeros_sparse zs2 h2 1 _
  | cons z t ih =>
    have hz : z = 0 := h1 z (by simp)
    subst hz
    have ht : ∀ x ∈ t, x = 0 := fun x hx => h1 x (by simp [hx])
    show mw_pass2 true ((0 : Int) :: (t ++ 1 :: zs2)) ((t ++ 1 :: zs2).length + 1)
        0 (List.replicate sp 0) = _
    rw [show mw_pass2 true ((0 : Int) :: (t ++ 1 :: zs2))
        ((t ++ 1 :: zs2).length + 1) 0 (List.replicate sp 0)
        = mw_pass2 true (t ++ 1 :: zs2) (t ++ 1 :: zs2).length 0
            (List.replicate sp 0) from rfl]
    exact ih ht

/-- Shared conclusion: a one-used-entry length list is accepted by
`make_words` in sparse mode. -/
theorem make_words_single1_sparse_ok (zs1 zs2 : List Int)
    (h1 : ∀ x ∈ zs1, x = 0) (h2 : ∀ x ∈ zs2, x = 0)
    (sp : Nat) (hsp : sp ≠ 0) :
    make_words (zs1 ++ 1 :: zs2) (zs1 ++ 1 :: zs2).length sp
      = .ok (List.replicate sp 0) := by
  have hb : (sp != 0) = true := by simpa using hsp
  have hpos : 0 < sp := Nat.pos_of_ne_zero hsp
  unfold make_words
  simp only [hb, if_true, bind_ok_eq]
  rw [mw_pass1_single1_sparse zs1 zs2 h1 h2 0 (List.replicate sp 0)
    (by simpa using hpos)]
  simp only [bind_ok_eq, set_replicate_self]
  rw [if_neg (by simp [markerOne])]
  rw [mw_pass2_single1_sparse zs1 zs2 h1 h2 sp hpos]
  simp only [bind_ok_eq]

/-- Shared conclusion: a one-used-entry length list of length ≥ 2 is
rejected as under-populated by `make_words` in dense mode. -/
theorem make_words_single1_dense_err (zs1 zs2 : List Int)
    (h1 : ∀ x ∈ zs1, x = 0) (h2 : ∀ x ∈ zs2, x = 0)
    (hlen : 2 ≤ (zs1 ++ 1 :: zs2).length) :
    make_words (zs1 ++ 1 :: zs2) (zs1 ++ 1 :: zs2).length 0
      = .error .invalidData := by
  have hb : ((0 : Nat) != 0) = false := by simp
  unfold make_words
  simp only [hb, Bool.false_eq_true, if_false, bind_ok_eq]
  rw [mw_pass1_single1_dense zs1 zs2 h1 h2 0
    (List.replicate (zs1 ++ 1 :: zs2).length 0)
    (by simp only [List.length_replicate, List.length_append,
      List.length_cons]; omega)]
  simp only [bind_ok_eq]
  rw [if_pos ?_]
  refine ⟨fun hc => ?_, markerOne_underpop⟩
  have := hc.1
  simp only [List.length_append, List.length_cons] at hlen
  omega

/-- C10: the single-entry under-population exemption of `make_words` is
keyed on the count of assigned (nonzero-length) entries: a length list with
exactly one used entry of length 1 and any number of zero-length entries is
accepted when `sparsecount ≠ 0` (the count then only counts used entries),
but rejected as under-populated when `sparsecount = 0` and the list has at
least two entries (the count then counts every entry). -/
theorem C10_sparse_single_entry_exemption (zs1 zs2 : List Int)
    (h1 : ∀ x ∈ zs1, x = 0) (h2 : ∀ x ∈ zs2, x = 0) (sp : Nat) :
    (sp ≠ 0 →
      make_words (zs1 ++ 1 :: zs2) (zs1 ++ 1 :: zs2).length sp
        = .ok (List.replicate sp 0)) ∧
    (2 ≤ (zs1 ++ 1 :: zs2).length →
      make_words (zs1 ++ 1 :: zs2) (zs1 ++ 1 :: zs2).length 0
        = .error .invalidData) := by
  exact ⟨make_words_single1_sparse_ok zs1 zs2 h1 h2 sp,
         make_words_single1_dense_err zs1 zs2 h1 h2⟩

/-- Witness for `C10_sparse_single_entry_exemption` at
`lengthlist = [1, 0]`, `n = 2`: accepted with `sparsecount = 2`, rejected
with `sparsecount = 0`. -/
theorem C10_sparse_single_entry_exemption_witness :
    make_words [1, 0] 2 2 = .ok [0, 0] ∧
    make_words [1, 0] 2 0 = .error .invalidData := by
  have h := C10_sparse_single_entry_exemption [] [0] (by simp) (by simp) 2
  exact ⟨h.1 (by decide), h.2 (by decide)⟩

theorem set_oob {α : Type} (l : List α) (i : Nat) (v : α) (h : l.length ≤ i) :
    l.set i v = l := by
  induction l generalizing i with
  | nil => rfl
  | cons a t ih =>
    cases i with
    | zero => simp at h
    | succ j => simp only [List.set]; rw [ih j (by simpa using h)]

theorem mw_up_length (L : Nat) : ∀ marker : List Nat,
    (mw_up marker L).length = marker.length := by
  induction L with
  | zero => intro marker; rfl
  | succ j ih =>
    intro marker
    unfold mw_up
    split
    · split <;> simp [List.length_set]
    · rw [ih]; simp [List.length_set]

theorem mw_prune_length (fuel : Nat) : ∀ (marker : List Nat) (entry j : Nat),
    (mw_prune marker entry j fuel).length = marker.length := by
  induction fuel with
  | zero => intro marker entry j; rfl
  | succ f ih =>
    intro marker entry j
    unfold mw_prune
    split
    · split
      · rw [ih]; simp [List.length_set]
      · rfl
    · rfl

/-- `mw_up` either leaves `marker[1]` unchanged or bumps it by one
(wrapping at `2^32`). -/
theorem mw_up_getD1 (L : Nat) : ∀ marker : List Nat,
    (mw_up marker L).getD 1 0 = marker.getD 1 0 ∨
    (mw_up marker L).getD 1 0 = (marker.getD 1 0 + 1) % 2 ^ 32 := by
  induction L with
  | zero => intro marker; exact Or.inl rfl
  | succ j ih =>
    intro marker
    unfold mw_up
    split
    · split
      · rename_i hj1
        have hj0 : j = 0 := by omega
        subst hj0
        by_cases hl : 1 < marker.length
        · exact Or.inr (getD_set_self _ hl)
        · rw [set_oob marker 1 _ (by omega)]; exact Or.inl rfl
      · rename_i hj1
        exact Or.inl (getD_set_other marker (j + 1) 1 _ (by omega))
    · cases j with
      | zero =>
        rw [show mw_up (marker.set 1 ((marker.getD 1 0 + 1) % 2 ^ 32)) 0
            = marker.set 1 ((marker.getD 1 0 + 1) % 2 ^ 32) from rfl]
        by_cases hl : 1 < marker.length
        · exact Or.inr (getD_set_self _ hl)
        · rw [set_oob marker 1 _ (by omega)]; exact Or.inl rfl
      | succ j0 =>
        have hset : (marker.set (j0 + 1 + 1)
            ((marker.getD (j0 + 1 + 1) 0 + 1) % 2 ^ 32)).getD 1 0
            = marker.getD 1 0 :=
          getD_set_other marker (j0 + 1 + 1) 1 _ (by omega)
        rcases ih (marker.set (j0 + 1 + 1)
            ((marker.getD (j0 + 1 + 1) 0 + 1) % 2 ^ 32)) with h | h
        · exact Or.inl (by rw [h, hset])
        · exact Or.inr (by rw [h, hset])

/-- `mw_prune` started at `j ≥ 2` never touches `marker[1]`. -/
theorem mw_prune_getD1 (fuel : Nat) : ∀ (marker : List Nat) (entry j : Nat),
    2 ≤ j → (mw_prune marker entry j fuel).getD 1 0 = marker.getD 1 0 := by
  induction fuel with
  | zero => intro marker entry j _; rfl
  | succ f ih =>
    intro marker entry j hj
    unfold mw_prune
    split
    · split
      · rw [ih _ _ (j + 1) (by omega),
          getD_set_other marker j 1 _ (by omega)]
      · rfl
    · rfl

theorem mw_up_one (marker : List Nat) :
    mw_up marker 1 = marker.set 1 ((marker.getD 1 0 + 1) % 2 ^ 32) := by
  unfold mw_up
  split
  · rw [if_pos rfl]
  · rfl

theorem i8AsUsize_of_nonneg {v : Int} (h0 : 0 ≤ v) (h1 : v < 2 ^ 64) :
    i8AsUsize v = v.toNat := by
  unfold i8AsUsize
  rw [Int.emod_eq_of_lt h0 (by exact_mod_cast h1)]

/-- One unfolding step of `mw_pass1` on a cons cell. -/
theorem mw_pass1_cons (sparse : Bool) (lv : Int) (rest : List Int)
    (n count : Nat) (marker ret : List Nat) :
    mw_pass1 sparse (lv :: rest) (n + 1) count marker ret
      = if i8AsUsize lv > 0 then
          (vget marker (i8AsUsize lv)) >>= fun entry =>
            if i8AsUsize lv < 32 ∧ entry >>> (i8AsUsize lv) ≠ 0 then
              .error .invalidData
            else
              (vset ret count entry) >>= fun ret2 =>
                mw_pass1 sparse rest n (count + 1)
                  (mw_prune (mw_up marker (i8AsUsize lv)) entry
                    (i8AsUsize lv + 1) 33) ret2
        else
          mw_pass1 sparse rest n
            (if sparse then count else count + 1) marker ret := rfl

/-- A third length-1 entry always overflows the 1-bit level: in dense mode
any length list (entries in `0..=32`) containing at least three `1`s is
rejected with the over-populated-tree error, because `marker[1]` never
decreases and each accepted length-1 entry increments it. -/
theorem mw_pass1_three_ones : ∀ (ll : List Int) (count : Nat)
    (marker ret : List Nat),
    (∀ x ∈ ll, 0 ≤ x ∧ x ≤ 32) → marker.length = 33 →
    marker.getD 1 0 + ll.length < 2 ^ 32 →
    count + ll.length ≤ ret.length →
    3 ≤ marker.getD 1 0 + ll.count 1 →
    1 ≤ ll.count 1 →
    mw_pass1 false ll ll.length count marker ret = .error .invalidData := by
  intro ll
  induction ll with
  | nil =>
    intro count marker ret _ _ _ _ _ hone
    simp at hone
  | cons x rest ih =>
    intro count marker ret hB hm hw hs h3 h1
    obtain ⟨hx0, hx32⟩ := hB x (by simp)
    have hBr : ∀ y ∈ rest, 0 ≤ y ∧ y ≤ 32 := fun y hy => hB y (by simp [hy])
    have hU : i8AsUsize x = x.toNat :=
      i8AsUsize_of_nonneg hx0 (by omega)
    simp only [List.length_cons] at hw hs ⊢
    rw [mw_pass1_cons]
    by_cases hx1 : x = 1
    · subst hx1
      have hU1 : i8AsUsize (1 : Int) = 1 := rfl
      rw [if_pos (by rw [hU1]; omega)]
      rw [hU1, vget_okN (show (1 : Nat) < marker.length by omega)]
      simp only [bind_ok_eq]
      by_cases hm1 : 2 ≤ marker.getD 1 0
      · rw [if_pos ⟨by omega, by
          rw [Nat.shiftRight_eq_div_pow]
          omega⟩]
      · push_neg at hm1
        rw [if_neg (by
          rintro ⟨-, hne⟩
          apply hne
          rw [Nat.shiftRight_eq_div_pow]
          omega)]
        rw [vset_ok (by omega)]
        simp only [bind_ok_eq]
        have hwrap : marker.getD 1 0 + 1 < 2 ^ 32 := by omega
        have hg1 : (mw_prune (mw_up marker 1)
            (marker.getD 1 0) (1 + 1) 33).getD 1 0
            = marker.getD 1 0 + 1 := by
          rw [mw_prune_getD1 33 _ _ 2 (by omega), mw_up_one,
            getD_set_self _ (by omega)]
          omega
        have hlen2 : (mw_prune (mw_up marker 1)
            (marker.getD 1 0) (1 + 1) 33).length = 33 := by
          rw [mw_prune_length, mw_up_length, hm]
        apply ih (count + 1) _ _ hBr hlen2
        · rw [hg1]; omega
        · simp only [List.length_set]; omega
        · rw [hg1]
          simp only [List.count_cons, beq_self_eq_true, if_true] at h3 ⊢
          omega
        · simp only [List.count_cons, beq_self_eq_true, if_true] at h3
          omega
    · -- x ≠ 1
      have hcnt : (x :: rest : List Int).count 1 = rest.count 1 := by
        simp [List.count_cons, hx1]
      by_cases hxz : x = 0
      · subst hxz
        rw [if_neg (by simp [hU])]
        simp only [Bool.false_eq_true, if_false]
        apply ih (count + 1) _ _ hBr hm
        · omega
        · omega
        · rw [hcnt] at h3; omega
        · rw [hcnt] at h1; omega
      · -- 2 ≤ x ≤ 32
        have hx2 : 2 ≤ x := by
          rcases lt_or_ge x 2 with h | h
          · interval_cases x <;> simp_all
          · exact h
        have hL : 2 ≤ i8AsUsize x ∧ i8AsUsize x ≤ 32 := by
          rw [hU]; omega
        rw [if_pos (by omega)]
        rw [vget_okN (by omega)]
        simp only [bind_ok_eq]
        by_cases hc : i8AsUsize x < 32 ∧
            marker.getD (i8AsUsize x) 0 >>> (i8AsUsize x) ≠ 0
        · rw [if_pos hc]
        · rw [if_neg hc, vset_ok (by omega)]
          simp only [bind_ok_eq]
          have hwrap : marker.getD 1 0 + 1 < 2 ^ 32 := by omega
          have hg1 : (mw_prune (mw_up marker (i8AsUsize x))
              (marker.getD (i8AsUsize x) 0) (i8AsUsize x + 1) 33).getD 1 0
              = marker.getD 1 0 ∨
              (mw_prune (mw_up marker (i8AsUsize x))
              (marker.getD (i8AsUsize x) 0) (i8AsUsize x + 1) 33).getD 1 0
              = marker.getD 1 0 + 1 := by
            rw [mw_prune_getD1 33 _ _ _ (by omega)]
            rcases mw_up_getD1 (i8AsUsize x) marker with h | h
            · exact Or.inl h
            · right; rw [h, Nat.mod_eq_of_lt hwrap]
          have hlen2 : (mw_prune (mw_up marker (i8AsUsize x))
              (marker.getD (i8AsUsize x) 0) (i8AsUsize x + 1) 33).length
              = 33 := by
            rw [mw_prune_length, mw_up_length, hm]
          apply ih (count + 1) _ _ hBr hlen2
          · rcases hg1 with h | h <;> rw [h] <;> omega
          · simp only [List.length_set]; omega
          · rw [hcnt] at h3
            rcases hg1 with h | h <;> rw [h] <;> omega
          · rw [hcnt] at h1; omega

/-- The scaled Kraft sum `Σ 2^(32-l)` over the used (nonzero-length)
entries; a list is over-populated when it exceeds `2^32` and
under-populated when it falls short of `2^32` (the spec's notion of
over/under-populated trees). -/
def kraftScaled (ll : List Int) : Nat :=
  (ll.map fun l => if 0 < l ∧ l ≤ 32 then 2 ^ (32 - l.toNat) else 0).sum

/-- C5 (amended): in dense mode (`sparsecount = 0`, the mode the claim's
examples use) `make_words` rejects the claim's populations: any length
list (entries in `0..=32`) with at least three length-1 entries is
over-populated and rejected with an invalid-data error; any list with
exactly one used entry, of length 1, and at least two entries total is
under-populated and rejected; the claimed examples `[1,1,1]` and `[1,0]`
are rejected and the exempt single-entry book `[1]` is accepted.  (With
`sparsecount ≠ 0` the exemption is broader — see the counterexample.) -/
theorem C5_make_words_population_checks :
    (∀ ll : List Int, (∀ x ∈ ll, 0 ≤ x ∧ x ≤ 32) → ll.length < 2 ^ 32 →
      3 ≤ ll.count 1 → make_words ll ll.length 0 = .error .invalidData) ∧
    (∀ zs1 zs2 : List Int, (∀ x ∈ zs1, x = 0) → (∀ x ∈ zs2, x = 0) →
      2 ≤ (zs1 ++ 1 :: zs2).length →
      make_words (zs1 ++ 1 :: zs2) (zs1 ++ 1 :: zs2).length 0
        = .error .invalidData) ∧
    make_words [1, 1, 1] 3 0 = .error .invalidData ∧
    make_words [1, 0] 2 0 = .error .invalidData ∧
    make_words [1] 1 0 = .ok [0] := by
  refine ⟨?_, ?_, by decide, by decide, by decide⟩
  · intro ll hB hlen h3
    have hb : ((0 : Nat) != 0) = false := by simp
    unfold make_words
    simp only [hb, Bool.false_eq_true, if_false]
    rw [mw_pass1_three_ones ll 0 (List.replicate 33 0)
      (List.replicate ll.length 0) hB (by simp) (by simpa using hlen)
      (by simp) (by simpa using h3) (by omega)]
    rfl
  · intro zs1 zs2 h1 h2 hlen
    exact make_words_single1_dense_err zs1 zs2 h1 h2 hlen

/-- Counterexample to C5 as stated: the under-populated list `[1, 0]`
(scaled Kraft sum `2^31 < 2^32`, one tree leaf unassigned, and not the
claimed single exception `[1]`) is nevertheless accepted by `make_words`
when called with `sparsecount = 2`, as `CodeBook::new_for_decode` does —
the exemption is keyed on the count of assigned entries, not on
`lengthlist = [1]`. -/
theorem C5_make_words_population_checks_counterexample :
    kraftScaled [1, 0] < 2 ^ 32 ∧ ([1, 0] : List Int) ≠ [1] ∧
    make_words [1, 0] 2 2 = .ok [0, 0] := by decide

/-- Witness for `C5_make_words_population_checks` at concrete inputs. -/
theorem C5_make_words_population_checks_witness :
    make_words [1, 1, 1, 1] 4 0 = .error .invalidData ∧
    make_words [0, 1] 2 0 = .error .invalidData :=
  ⟨C5_make_words_population_checks.1 [1, 1, 1, 1] (by decide) (by decide)
    (by decide),
   C5_make_words_population_checks.2.1 [0] [] (by decide) (by decide)
    (by decide)⟩

/-! ## codebook.rs: StaticCodeBook and book_maptype1_quantvals

`i32` arithmetic wraps modulo `2^32` (release-mode Rust); `wrap32` maps an
integer into `[-2^31, 2^31)`.  Rust `i32` division truncates toward zero
(`Int.tdiv`).  The initial `vals` estimate comes from `f32::powf`, which is
not embeddable; it is an explicit `guess` parameter (any `i32`), matching
the code's own stance that the estimate is untrusted and only the integer
correction loop matters.  The unbounded `loop` is modelled with fuel;
`none` means the loop has not returned within the given fuel. -/

def I32MAX : Int := 2 ^ 31 - 1

def wrap32 (x : Int) : Int := (x + 2 ^ 31) % 2 ^ 32 - 2 ^ 31

structure StaticCodeBook where
  dim : Int
  entries : Int
  lengthlist : List Int
  maptype : Int
  q_min : Nat
  q_delta : Nat
  q_quant : Int
  q_sequencep : Bool
  quantlist : List Int
  deriving DecidableEq

def StaticCodeBook.dflt : StaticCodeBook :=
  { dim := 0, entries := 0, lengthlist := [], maptype := 0, q_min := 0,
    q_delta := 0, q_quant := 0, q_sequencep := false, quantlist := [] }

/-- The `while i < dim` inner loop of `book_maptype1_quantvals`; fuel
`dim.toNat` covers every iteration.  Returns `(i, acc, acc1)`. -/
def qvInner (entries dim vals : Int) : Nat → Int → Int → Int → Int × Int × Int
  | 0, i, acc, acc1 => (i, acc, acc1)
  | fuel + 1, i, acc, acc1 =>
    if i < dim then
      if entries.tdiv vals < acc then (i, acc, acc1)
      else
        qvInner entries dim vals fuel (i + 1) (wrap32 (acc * vals))
          (if I32MAX.tdiv (vals + 1) < acc1 then I32MAX
           else wrap32 (acc1 * (vals + 1)))
    else (i, acc, acc1)

/-- The outer `loop` of `book_maptype1_quantvals`. -/
def qvLoop (entries dim : Int) : Nat → Int → Option Int
  | 0, _ => none
  | fuel + 1, vals =>
    let r := qvInner entries dim vals dim.toNat 0 1 1
    if dim ≤ r.1 ∧ r.2.1 ≤ entries ∧ entries < r.2.2 then some vals
    else if r.1 < dim ∨ entries < r.2.1 then
      qvLoop entries dim fuel (wrap32 (vals - 1))
    else qvLoop entries dim fuel (wrap32 (vals + 1))

/-- `StaticCodeBook::book_maptype1_quantvals`, with the floating-point
estimate as the `guess` parameter and fuel large enough for the corrected
search (see `C7_book_maptype1_quantvals`). -/
def StaticCodeBook.book_maptype1_quantvals (b : StaticCodeBook)
    (guess : Int) : Option Int :=
  if b.entries < 1 then some 0
  else qvLoop b.entries b.dim ((max guess 1).toNat + b.entries.toNat + 2)
    (max guess 1)

example : qvLoop 256 2 20 1 = some 16 := by decide
example : qvLoop 125 3 20 1 = some 5 := by decide
example : qvLoop 125 3 120 100 = some 5 := by decide

/-- Counterexample to C7 as stated: at `entries = i32::MAX` (with
`dim = 1`, a valid book shape with `entries ≥ 1`), the correction loop can
never satisfy `acc1 > entries` (`acc1` is capped at `i32::MAX`), so it
never returns: starting from the saturated float estimate `i32::MAX` the
state cycles between `vals = i32::MAX` and the wrapped `vals = i32::MIN`
forever — `book_maptype1_quantvals` diverges instead of returning the
unique root (`vals = entries` for `dim = 1`). -/
theorem C7_book_maptype1_quantvals_counterexample :
    (1 : Int) ≤ 2 ^ 31 - 1 ∧
    ∀ fuel : Nat,
      qvLoop (2 ^ 31 - 1) 1 fuel (2 ^ 31 - 1) = none ∧
      qvLoop (2 ^ 31 - 1) 1 fuel (-(2 ^ 31)) = none := by
  refine ⟨by norm_num, ?_⟩
  have s1 : ∀ f : Nat, qvLoop (2 ^ 31 - 1) 1 (f + 1) (2 ^ 31 - 1)
      = qvLoop (2 ^ 31 - 1) 1 f (-(2 ^ 31)) := fun f => rfl
  have s2 : ∀ f : Nat, qvLoop (2 ^ 31 - 1) 1 (f + 1) (-(2 ^ 31))
      = qvLoop (2 ^ 31 - 1) 1 f (2 ^ 31 - 1) := fun f => rfl
  intro fuel
  induction fuel with
  | zero => exact ⟨rfl, rfl⟩
  | succ f ih => exact ⟨(s1 f).trans ih.2, (s2 f).trans ih.1⟩

theorem wrap32_eq_self {x : Int} (h1 : -(2 ^ 31) ≤ x) (h2 : x < 2 ^ 31) :
    wrap32 x = x := by
  unfold wrap32
  rw [Int.emod_eq_of_lt (by omega) (by omega)]
  omega

/-- The capped power `min ((vals+1)^k) i32::MAX` tracked in `acc1`. -/
def acc1val (vals : Int) (k : Nat) : Int :=
  if (vals + 1) ^ k ≤ I32MAX then (vals + 1) ^ k else I32MAX

theorem tdiv_lt_iff {e v a : Int} (he : 0 ≤ e) (hv : 0 < v) :
    e.tdiv v < a ↔ e < a * v := by
  rw [Int.tdiv_eq_ediv he (le_of_lt hv)]
  constructor
  · intro h
    by_contra hc
    push_neg at hc
    exact absurd (Int.le_ediv_iff_mul_le hv |>.mpr hc) (by omega)
  · intro h
    by_contra hc
    push_neg at hc
    exact absurd ((Int.le_ediv_iff_mul_le hv).mp hc) (by omega)

/-- No-break run of the inner loop: starting at step `i` with
`acc = vals^i`, `acc1 = acc1val vals i`, if `vals^dim ≤ entries` the loop
runs to `i = dim` computing `vals^dim` and the capped `(vals+1)^dim`. -/
theorem qvInner_full (entries dim vals : Int) (he : 0 ≤ entries)
    (heM : entries ≤ I32MAX) (hv : 1 ≤ vals)
    (hpow : vals ^ dim.toNat ≤ entries) (hdim : 0 ≤ dim) :
    ∀ (f i : Nat), i + f = dim.toNat →
      qvInner entries dim vals f (i : Int) (vals ^ i) (acc1val vals i)
        = (dim, vals ^ dim.toNat, acc1val vals dim.toNat) := by
  have hMAX : (0 : Int) < I32MAX := by unfold I32MAX; omega
  have hM31 : I32MAX < 2 ^ 31 := by unfold I32MAX; omega
  intro f
  induction f with
  | zero =>
    intro i hi
    have hieq : i = dim.toNat := by omega
    subst hieq
    rw [show qvInner entries dim vals 0 ((dim.toNat : Nat) : Int)
        (vals ^ dim.toNat) (acc1val vals dim.toNat)
        = (((dim.toNat : Nat) : Int), vals ^ dim.toNat,
            acc1val vals dim.toNat) from rfl,
      Int.toNat_of_nonneg hdim]
  | succ f ih =>
    intro i hi
    have hilt : (i : Int) < dim := by omega
    rw [qvInner, if_pos hilt]
    have hvpos : (0 : Int) < vals := by omega
    have hmul : vals ^ i * vals = vals ^ (i + 1) := by ring
    have hstep : vals ^ (i + 1) ≤ entries :=
      le_trans (pow_le_pow_right₀ hv (by omega)) hpow
    have haccpos : 0 ≤ vals ^ i * vals :=
      mul_nonneg (pow_nonneg (by omega) i) (by omega)
    rw [if_neg (by
      rw [tdiv_lt_iff he hvpos]
      push_neg
      rw [hmul]
      exact hstep)]
    have hacc : wrap32 (vals ^ i * vals) = vals ^ (i + 1) := by
      rw [wrap32_eq_self (by linarith) (by rw [hmul]; linarith), hmul]
    have hacc1 : (if I32MAX.tdiv (vals + 1) < acc1val vals i then I32MAX
        else wrap32 (acc1val vals i * (vals + 1))) = acc1val vals (i + 1) := by
      have hv1 : (0 : Int) < vals + 1 := by omega
      have hmul1 : (vals + 1) ^ i * (vals + 1) = (vals + 1) ^ (i + 1) := by ring
      have hpownn : (0 : Int) ≤ (vals + 1) ^ i * (vals + 1) :=
        mul_nonneg (pow_nonneg (by omega) i) (by omega)
      by_cases hcap : (vals + 1) ^ (i + 1) ≤ I32MAX
      · have hprev : (vals + 1) ^ i ≤ I32MAX :=
          le_trans (pow_le_pow_right₀ (by omega) (by omega)) hcap
        have e1 : acc1val vals i = (vals + 1) ^ i := by
          unfold acc1val; rw [if_pos hprev]
        have e2 : acc1val vals (i + 1) = (vals + 1) ^ (i + 1) := by
          unfold acc1val; rw [if_pos hcap]
        rw [e1, e2, if_neg (by
          rw [tdiv_lt_iff (le_of_lt hMAX) hv1]
          push_neg
          rw [hmul1]
          exact hcap)]
        rw [wrap32_eq_self (by linarith) (by rw [hmul1]; linarith), hmul1]
      · have e2 : acc1val vals (i + 1) = I32MAX := by
          unfold acc1val; rw [if_neg hcap]
        rw [e2]
        by_cases hprev : (vals + 1) ^ i ≤ I32MAX
        · have e1 : acc1val vals i = (vals + 1) ^ i := by
            unfold acc1val; rw [if_pos hprev]
          rw [e1, if_pos (by
            rw [tdiv_lt_iff (le_of_lt hMAX) hv1]
            push_neg at hcap
            rw [hmul1]
            exact hcap)]
        · have e1 : acc1val vals i = I32MAX := by
            unfold acc1val; rw [if_neg hprev]
          rw [e1, if_pos (by
            rw [tdiv_lt_iff (le_of_lt hMAX) hv1]
            nlinarith [mul_pos hMAX (show (0 : Int) < vals by omega)])]
    rw [hacc, hacc1]
    have hcast : ((i : Int) + 1) = ((i + 1 : Nat) : Int) := by push_cast; ring
    rw [hcast]
    exact ih (i + 1) (by omega)

/-- Breaking run of the inner loop: if `entries < vals^dim` the loop breaks
strictly before `i = dim` (whatever `acc1` holds). -/
theorem qvInner_break (entries dim vals : Int) (he : 1 ≤ entries)
    (heM : entries ≤ I32MAX) (hv : 1 ≤ vals)
    (hpow : entries < vals ^ dim.toNat) (hdim : 0 ≤ dim) :
    ∀ (f i : Nat), i + f = dim.toNat → vals ^ i ≤ entries →
      ∀ acc1 : Int,
        (qvInner entries dim vals f (i : Int) (vals ^ i) acc1).1 < dim := by
  have hM31 : I32MAX < 2 ^ 31 := by unfold I32MAX; omega
  intro f
  induction f with
  | zero =>
    intro i hi hinv acc1
    have hieq : i = dim.toNat := by omega
    subst hieq
    exact absurd hinv (not_le.mpr hpow)
  | succ f ih =>
    intro i hi hinv acc1
    have hilt : (i : Int) < dim := by omega
    rw [qvInner, if_pos hilt]
    have hvpos : (0 : Int) < vals := by omega
    have hmul : vals ^ i * vals = vals ^ (i + 1) := by ring
    by_cases hbr : entries.tdiv vals < vals ^ i
    · rw [if_pos hbr]
      exact hilt
    · rw [if_neg hbr]
      have hstep : vals ^ (i + 1) ≤ entries := by
        rw [tdiv_lt_iff (by omega) hvpos] at hbr
        push_neg at hbr
        rw [← hmul]
        exact hbr
      have haccpos : 0 ≤ vals ^ i * vals :=
        mul_nonneg (pow_nonneg (by omega) i) (by omega)
      have hacc : wrap32 (vals ^ i * vals) = vals ^ (i + 1) := by
        rw [wrap32_eq_self (by linarith) (by rw [hmul]; linarith), hmul]
      rw [hacc]
      have hcast : ((i : Int) + 1) = ((i + 1 : Nat) : Int) := by push_cast; ring
      rw [hcast]
      exact ih (i + 1) (by omega) hstep _

theorem qvLoop_succ (entries dim : Int) (f : Nat) (vals : Int) :
    qvLoop entries dim (f + 1) vals
      = (if dim ≤ (qvInner entries dim vals dim.toNat 0 1 1).1 ∧
            (qvInner entries dim vals dim.toNat 0 1 1).2.1 ≤ entries ∧
            entries < (qvInner entries dim vals dim.toNat 0 1 1).2.2
         then some vals
         else if (qvInner entries dim vals dim.toNat 0 1 1).1 < dim ∨
            entries < (qvInner entries dim vals dim.toNat 0 1 1).2.1 then
           qvLoop entries dim f (wrap32 (vals - 1))
         else qvLoop entries dim f (wrap32 (vals + 1))) := rfl

theorem qvInner_full0 (entries dim vals : Int) (he : 0 ≤ entries)
    (heM : entries ≤ I32MAX) (hv : 1 ≤ vals)
    (hpow : vals ^ dim.toNat ≤ entries) (hdim : 0 ≤ dim) :
    qvInner entries dim vals dim.toNat 0 1 1
      = (dim, vals ^ dim.toNat, acc1val vals dim.toNat) := by
  have h := qvInner_full entries dim vals he heM hv hpow hdim dim.toNat 0
    (by omega)
  have e0 : acc1val vals 0 = 1 := by
    unfold acc1val I32MAX
    rw [if_pos (by norm_num)]
    exact pow_zero _
  simpa [e0, pow_zero] using h

theorem qvInner_break0 (entries dim vals : Int) (he : 1 ≤ entries)
    (heM : entries ≤ I32MAX) (hv : 1 ≤ vals)
    (hpow : entries < vals ^ dim.toNat) (hdim : 0 ≤ dim) :
    (qvInner entries dim vals dim.toNat 0 1 1).1 < dim := by
  have h := qvInner_break entries dim vals he heM hv hpow hdim dim.toNat 0
    (by omega) (by simpa using he) 1
  simpa using h

/-- The correction loop, from any starting point in `[1, i32::MAX]` and
with fuel exceeding the distance to the root, returns the unique `v` with
`v^dim ≤ entries < (v+1)^dim` — provided `entries ≤ i32::MAX - 1`. -/
theorem qvLoop_correct (entries dim : Int) (he1 : 1 ≤ entries)
    (heM : entries ≤ I32MAX - 1) (hd : 1 ≤ dim) (v : Int) (hv1 : 1 ≤ v)
    (hv2 : v ^ dim.toNat ≤ entries) (hv3 : entries < (v + 1) ^ dim.toNat) :
    ∀ (fuel : Nat) (vals : Int), 1 ≤ vals → vals ≤ I32MAX →
      (vals - v).toNat < fuel → (v - vals).toNat < fuel →
      qvLoop entries dim fuel vals = some v := by
  have hdn : 1 ≤ dim.toNat := by omega
  have hvle : v ≤ entries :=
    le_trans (le_self_pow hv1 (by omega)) hv2
  have heM0 : entries ≤ I32MAX := by omega
  intro fuel
  induction fuel with
  | zero =>
    intro vals _ _ h3 h4
    omega
  | succ f ih =>
    intro vals h1 h2 h3 h4
    rcases lt_trichotomy vals v with hlt | heq | hgt
    · -- vals < v : increment
      have hple : vals ^ dim.toNat ≤ entries :=
        le_trans (pow_le_pow_left (by omega) (by omega) _) hv2
      have hnext : (vals + 1) ^ dim.toNat ≤ entries :=
        le_trans (pow_le_pow_left (by omega) (by omega : vals + 1 ≤ v) _) hv2
      have hA1 : acc1val vals dim.toNat = (vals + 1) ^ dim.toNat := by
        unfold acc1val
        rw [if_pos (by omega)]
      rw [qvLoop_succ, qvInner_full0 entries dim vals (by omega) heM0 h1
        hple (by omega)]
      simp only
      rw [if_neg (by
        rintro ⟨-, -, hc⟩
        rw [hA1] at hc
        omega)]
      rw [if_neg (by
        rintro (hc | hc) <;> omega)]
      rw [wrap32_eq_self (by unfold I32MAX at *; omega)
        (by unfold I32MAX at *; omega)]
      exact ih (vals + 1) (by omega) (by omega) (by omega) (by omega)
    · -- vals = v : return
      subst heq
      rw [qvLoop_succ, qvInner_full0 entries dim vals (by omega) heM0 h1
        hv2 (by omega)]
      simp only
      rw [if_pos ⟨le_refl dim, hv2, by
        unfold acc1val
        by_cases hc : (vals + 1) ^ dim.toNat ≤ I32MAX
        · rw [if_pos hc]; exact hv3
        · rw [if_neg hc]; omega⟩]
    · -- v < vals : decrement
      have hplt : entries < vals ^ dim.toNat :=
        lt_of_lt_of_le hv3 (pow_le_pow_left (by omega) (by omega) _)
      have hbrk := qvInner_break0 entries dim vals he1 heM0 h1 hplt (by omega)
      rw [qvLoop_succ]
      rw [if_neg (by
        rintro ⟨hc, -, -⟩
        omega)]
      rw [if_pos (Or.inl hbrk)]
      rw [wrap32_eq_self (by unfold I32MAX at *; omega)
        (by unfold I32MAX at *; omega)]
      exact ih (vals - 1) (by omega) (by omega) (by omega) (by omega)

/-- C7 (amended): with any initial estimate `guess` (an `i32`), the
integer correction of `book_maptype1_quantvals` finds the unique `vals`
with `vals^dim ≤ entries < (vals+1)^dim` for every `1 ≤ entries ≤
i32::MAX - 1` and `dim ≥ 1` (at `entries = i32::MAX` it diverges, see the
counterexample), and returns `0` whenever `entries < 1`. -/
theorem C7_book_maptype1_quantvals (b : StaticCodeBook) (guess : Int)
    (hg : guess ≤ I32MAX) :
    (b.entries < 1 → b.book_maptype1_quantvals guess = some 0) ∧
    (1 ≤ b.entries → b.entries ≤ I32MAX - 1 → 1 ≤ b.dim →
      ∃ v : Int, b.book_maptype1_quantvals guess = some v ∧ 1 ≤ v ∧
        v ^ b.dim.toNat ≤ b.entries ∧ b.entries < (v + 1) ^ b.dim.toNat ∧
        ∀ w : Int, 1 ≤ w → w ^ b.dim.toNat ≤ b.entries →
          b.entries < (w + 1) ^ b.dim.toNat → w = v) := by
  constructor
  · intro h
    unfold StaticCodeBook.book_maptype1_quantvals
    rw [if_pos h]
  · intro he1 heM hd
    have hE1 : 1 ≤ b.entries.toNat := by omega
    have hEcast : ((b.entries.toNat : Nat) : Int) = b.entries :=
      Int.toNat_of_nonneg (by omega)
    have hdn : 1 ≤ b.dim.toNat := by omega
    set d := b.dim.toNat with hdd
    set E := b.entries.toNat with hEE
    have hP1 : 1 ^ d ≤ E := by simpa using hE1
    obtain ⟨v0, h1, h2, h3⟩ :
        ∃ v0 : Nat, 1 ≤ v0 ∧ v0 ^ d ≤ E ∧ E < (v0 + 1) ^ d := by
      have h1 : 1 ≤ Nat.findGreatest (fun k => k ^ d ≤ E) E :=
        Nat.le_findGreatest hE1 hP1
      have hiff := Nat.findGreatest_eq_iff.mp
        (rfl : Nat.findGreatest (fun k => k ^ d ≤ E) E
          = Nat.findGreatest (fun k => k ^ d ≤ E) E)
      refine ⟨Nat.findGreatest (fun k => k ^ d ≤ E) E, h1,
        hiff.2.1 (by omega), ?_⟩
      by_cases hvE : Nat.findGreatest (fun k => k ^ d ≤ E) E + 1 ≤ E
      · have hng := hiff.2.2 (show Nat.findGreatest (fun k => k ^ d ≤ E) E
            < Nat.findGreatest (fun k => k ^ d ≤ E) E + 1 by omega) hvE
        simp only [not_le] at hng
        omega
      · push_neg at hvE
        calc E < Nat.findGreatest (fun k => k ^ d ≤ E) E + 1 := by omega
          _ ≤ (Nat.findGreatest (fun k => k ^ d ≤ E) E + 1) ^ d :=
            Nat.le_self_pow (by omega) _
    have hv2 : ((v0 : Int)) ^ d ≤ b.entries := by
      rw [← hEcast]
      exact_mod_cast h2
    have hv3 : b.entries < ((v0 : Int) + 1) ^ d := by
      rw [← hEcast]
      exact_mod_cast h3
    have huniq : ∀ w : Int, 1 ≤ w → w ^ d ≤ b.entries →
        b.entries < (w + 1) ^ d → w = (v0 : Int) := by
      intro w hw1 hw2 hw3
      by_contra hne
      rcases lt_or_gt_of_ne hne with hlt | hgt
      · have : (w + 1) ^ d ≤ (v0 : Int) ^ d :=
          pow_le_pow_left (by omega) (by omega) _
        omega
      · have : ((v0 : Int) + 1) ^ d ≤ w ^ d :=
          pow_le_pow_left (by omega) (by omega) _
        omega
    refine ⟨(v0 : Int), ?_, by omega, hv2, hv3, huniq⟩
    unfold StaticCodeBook.book_maptype1_quantvals
    rw [if_neg (by omega)]
    have hvle : (v0 : Int) ≤ b.entries :=
      le_trans (le_self_pow (by omega) (by omega)) hv2
    apply qvLoop_correct b.entries b.dim he1 heM hd (v0 : Int) (by omega)
      hv2 hv3
    · exact le_max_right _ _
    · have : (1 : Int) ≤ I32MAX := by unfold I32MAX; omega
      exact max_le hg this
    · have hmx : (max guess 1) ≤ ((max guess 1).toNat : Int) := by
        rcases le_or_lt 0 (max guess 1) with h | h
        · rw [Int.toNat_of_nonneg h]
        · omega
      omega
    · omega

/-- Witness for `C7_book_maptype1_quantvals`: the claim's representative
pair `entries = 256, dim = 2` yields `vals = 16`. -/
theorem C7_book_maptype1_quantvals_witness :
    ({ dim := 2, entries := 256, lengthlist := [], maptype := 0, q_min := 0,
       q_delta := 0, q_quant := 0, q_sequencep := false, quantlist := [] }
      : StaticCodeBook).book_maptype1_quantvals 1 = some 16 := by
  obtain ⟨v, hv, -, -, -, huniq⟩ :=
    (C7_book_maptype1_quantvals
      { dim := 2, entries := 256, lengthlist := [], maptype := 0, q_min := 0,
        q_delta := 0, q_quant := 0, q_sequencep := false, quantlist := [] } 1
      (by decide)).2 (by decide) (by decide) (by decide)
  rw [hv, ← huniq 16 (by decide) (by decide) (by decide)]

/-! ## codebook.rs: CodeBook and new_for_encode

`f32` values are kept as raw bit patterns (`Nat`); the float arithmetic of
`book_unquantize` is not embeddable, but its result length is structural:
it allocates `vec![0.0; n * dim]` and returns it, so an `Ok` result always
has `n * dim` elements (`book_unquantize_ok_length`).  `quantvals` is the
fueled `book_maptype1_quantvals` with the float estimate as a `guess`
parameter, so the field is an `Option Int` (`none` = the loop diverged).
The `i32 as usize` cast sign-extends (`i32AsUsize`). -/

def i32AsUsize (v : Int) : Nat := (v % (2 ^ 64 : Int)).toNat

/-- Length of `Ok` results of `StaticCodeBook::book_unquantize(n, _)`:
the function allocates `vec![0.0; n * self.dim as usize]` and returns it. -/
def book_unquantize_ok_length (b : StaticCodeBook) (n : Nat) : Nat :=
  n * i32AsUsize b.dim

structure CodeBook where
  dim : Int
  entries : Int
  used_entries : Int
  static_codebook : Option StaticCodeBook
  value_list : List Nat
  code_list : List Nat
  dec_index : List Int
  dec_codelengths : List Int
  dec_firsttablen : Int
  dec_firsttable : List Nat
  dec_maxlength : Int
  quantvals : Option Int
  minval : Nat
  delta : Nat
  deriving DecidableEq

def CodeBook.dflt : CodeBook :=
  { dim := 0, entries := 0, used_entries := 0, static_codebook := none,
    value_list := [], code_list := [], dec_index := [],
    dec_codelengths := [], dec_firsttablen := 0, dec_firsttable := [],
    dec_maxlength := 0, quantvals := some 0, minval := 0, delta := 0 }

/-- `CodeBook::new_for_encode` (codebook.rs lines 688-700); `guess` is the
floating-point estimate inside `book_maptype1_quantvals`. -/
def CodeBook.new_for_encode (src : StaticCodeBook) (guess : Int) :
    Except Err CodeBook :=
  (make_words src.lengthlist (i32AsUsize src.entries) 0) >>= fun cl =>
    .ok { CodeBook.dflt with
      dim := src.dim
      entries := src.entries
      used_entries := src.entries
      static_codebook := some src
      code_list := cl
      quantvals := src.book_maptype1_quantvals guess
      minval := src.q_min
      delta := src.q_delta }

/-- C6 (amended): `new_for_encode` builds `code_list` via
`make_words(lengthlist, entries, sparsecount = 0)` (dense, entry-ordered)
and caches `quantvals` (via `book_maptype1_quantvals`), `minval = q_min`
and `delta = q_delta` — but it does NOT populate `value_list`: the field
keeps its `Default` (empty) value; `book_unquantize` is never called on
the encode path. -/
theorem C6_new_for_encode_fields (src : StaticCodeBook) (guess : Int)
    (cl : List Nat)
    (hmw : make_words src.lengthlist (i32AsUsize src.entries) 0 = .ok cl) :
    CodeBook.new_for_encode src guess
      = .ok { CodeBook.dflt with
          dim := src.dim
          entries := src.entries
          used_entries := src.entries
          static_codebook := some src
          code_list := cl
          quantvals := src.book_maptype1_quantvals guess
          minval := src.q_min
          delta := src.q_delta } ∧
    ∀ cb : CodeBook, CodeBook.new_for_encode src guess = .ok cb →
      cb.value_list = [] := by
  constructor
  · unfold CodeBook.new_for_encode
    rw [hmw]
    rfl
  · intro cb hcb
    unfold CodeBook.new_for_encode at hcb
    rw [hmw] at hcb
    simp only [bind_ok_eq] at hcb
    cases hcb
    rfl

/-- A small valid maptype-1 book: two used entries of length 1, one
dimension, quantised values `[0, 1]` (`q_delta` is the bit pattern of
`1.0f32`). -/
def c6book : StaticCodeBook :=
  { dim := 1, entries := 2, lengthlist := [1, 1], maptype := 1,
    q_min := 0, q_delta := 0x3F800000, q_quant := 1,
    q_sequencep := false, quantlist := [0, 1] }

/-- Counterexample to C6 as stated: for the valid maptype-1 book `c6book`
(`entries = 2`, `dim = 1`), `new_for_encode` succeeds but leaves
`value_list` empty, whereas `book_unquantize` at full density produces
`entries * dim = 2` values — `value_list` is not "the values dequantized
by book_unquantize at full density". -/
theorem C6_new_for_encode_fields_counterexample :
    ∃ cb : CodeBook,
      CodeBook.new_for_encode c6book 1 = .ok cb ∧
      cb.value_list.length = 0 ∧
      book_unquantize_ok_length c6book 2 = 2 := by
  refine ⟨_, rfl, rfl, rfl⟩

/-- Witness for `C6_new_for_encode_fields` at the concrete book `c6book`. -/
theorem C6_new_for_encode_fields_witness :
    CodeBook.new_for_encode c6book 1
      = .ok { CodeBook.dflt with
          dim := 1
          entries := 2
          used_entries := 2
          static_codebook := some c6book
          code_list := [0, 1]
          quantvals := c6book.book_maptype1_quantvals 1
          minval := 0
          delta := 0x3F800000 } :=
  (C6_new_for_encode_fields c6book 1 [0, 1] (by decide)).1

/-! ## codebook.rs: new_for_decode

`Vec::with_capacity(n)` produces a vector of LENGTH 0 (capacity is not
length), modelled as `[]`; the `sortindex[position] = …` /
`code_list[sortindex[i]] = …` loops index into those empty vectors.
`codes_r.sort_by(|a, b| ((a > b) as i32).cmp(&((a < b) as i32)))` is a
stable ascending sort of references; `offset_from` recovers each
reference's original index, modelled by stably sorting `(value, index)`
pairs.  The `book_unquantize` call computes `f32` values (out of model);
only its structural length is kept, which is sound here because control
never reaches it (and none of the theorems depend on it). -/

def bitreverse (x : Nat) : Nat :=
  let x1 := ((x >>> 16) &&& 0x0000ffff) ||| ((x <<< 16) &&& 0xffff0000)
  let x2 := ((x1 >>> 8) &&& 0x00ff00ff) ||| ((x1 <<< 8) &&& 0xff00ff00)
  let x3 := ((x2 >>> 4) &&& 0x0f0f0f0f) ||| ((x2 <<< 4) &&& 0xf0f0f0f0)
  let x4 := ((x3 >>> 2) &&& 0x33333333) ||| ((x3 <<< 2) &&& 0xcccccccc)
  ((x4 >>> 1) &&& 0x55555555) ||| ((x4 <<< 1) &&& 0xaaaaaaaa)

/-- `for i in 0..entries { if lengthlist[i] > 0 { n += 1 } }`. -/
def nfd_count : List Int → Nat → Except Err Nat
  | _, 0 => .ok 0
  | [], _ + 1 => .error .panic
  | lv :: rest, n + 1 =>
    (nfd_count rest n) >>= fun c => .ok (if 0 < lv then c + 1 else c)

/-- `for i in 0..n { codes[i] = bitreverse(codes[i]); }` (ascending). -/
def nfd_revpass : Nat → List Nat → Except Err (List Nat)
  | 0, codes => .ok codes
  | k + 1, codes =>
    (nfd_revpass k codes) >>= fun cs =>
      (vget cs k) >>= fun w => vset cs k (bitreverse w)

/-- Stable insertion keeping earlier elements before equal values. -/
def insertPair (p : Nat × Nat) : List (Nat × Nat) → List (Nat × Nat)
  | [] => [p]
  | q :: qs => if p.1 ≤ q.1 then p :: q :: qs else q :: insertPair p qs

/-- Stable ascending sort by value of `(value, original index)` pairs —
the model of `codes_r.sort_by(...)` plus `offset_from`. -/
def sortPairs : List (Nat × Nat) → List (Nat × Nat)
  | [] => []
  | p :: ps => insertPair p (sortPairs ps)

/-- `for i in 0..n { sortindex[position] = i as u32; }` over the sorted
references; `sortindex` starts as `Vec::with_capacity(n)` = length 0. -/
def nfd_sortindex : List (Nat × Nat) → Nat → List Nat → Except Err (List Nat)
  | [], _, si => .ok si
  | p :: rest, i, si =>
    (vset si p.2 i) >>= fun si2 => nfd_sortindex rest (i + 1) si2

/-- `for i in 0..n { code_list[sortindex[i] as usize] = codes[i]; }`. -/
def nfd_codelist (codes si : List Nat) : Nat → List Nat → Except Err (List Nat)
  | 0, cl => .ok cl
  | k + 1, cl =>
    (nfd_codelist codes si k cl) >>= fun cl2 =>
      (vget si k) >>= fun s => (vget codes k) >>= fun c => vset cl2 s c

/-- `n = 0; for i in 0..entries { if lengthlist[i] > 0 {
dec_index[sortindex[n] as usize] = i as i32; n += 1; } }`. -/
def nfd_decindex (si : List Nat) :
    List Int → Nat → Nat → Nat → List Int → Except Err (List Int)
  | _, 0, _, _, di => .ok di
  | [], _ + 1, _, _, _ => .error .panic
  | lv :: rest, e + 1, i, cnt, di =>
    if 0 < lv then
      (vget si cnt) >>= fun s => (vset di s (i : Int)) >>= fun di2 =>
        nfd_decindex si rest e (i + 1) (cnt + 1) di2
    else nfd_decindex si rest e (i + 1) cnt di

/-- Same shape for `dec_codelengths[sortindex[n] as usize] =
src.lengthlist[i]`. -/
def nfd_declengths (si : List Nat) :
    List Int → Nat → Nat → List Int → Except Err (List Int)
  | _, 0, _, dcl => .ok dcl
  | [], _ + 1, _, _ => .error .panic
  | lv :: rest, e + 1, cnt, dcl =>
    if 0 < lv then
      (vget si cnt) >>= fun s => (vset dcl s lv) >>= fun d2 =>
        nfd_declengths si rest e (cnt + 1) d2
    else nfd_declengths si rest e cnt dcl

/-- `src.lengthlist.iter().copied().max().unwrap()` (panics on empty). -/
def listMaxI : List Int → Except Err Int
  | [] => .error .panic
  | [x] => .ok x
  | x :: y :: rest =>
    (listMaxI (y :: rest)) >>= fun m => .ok (max x m)

/-- Inner `for j in 0..1 << (dec_firsttablen - dec_codelengths[i])` fill
(ascending `j`). -/
def nfd_ftfill_inner (orig : Nat) (len : Int) (v : Nat) :
    Nat → List Nat → Except Err (List Nat)
  | 0, ft => .ok ft
  | j + 1, ft =>
    (nfd_ftfill_inner orig len v j ft) >>= fun ft2 =>
      vset ft2 (orig ||| (j <<< len.toNat)) v

/-- `for i in 0..n { if dec_codelengths[i] <= dec_firsttablen { … } }`. -/
def nfd_ftfill (dcl : List Int) (cl : List Nat) (ftlen : Int) :
    Nat → List Nat → Except Err (List Nat)
  | 0, ft => .ok ft
  | i + 1, ft =>
    (nfd_ftfill dcl cl ftlen i ft) >>= fun ft2 =>
      (vget dcl i) >>= fun len =>
        if len ≤ ftlen then
          (vget cl i) >>= fun c =>
            nfd_ftfill_inner (bitreverse c) len (i + 1)
              (2 ^ (ftlen - len).toNat) ft2
        else .ok ft2

/-- `while lo + 1 < n && code_list[lo + 1] < word { lo += 1 }`. -/
def nfd_hilo_lo (cl : List Nat) (n word : Nat) : Nat → Nat → Except Err Nat
  | 0, lo => .ok lo
  | f + 1, lo =>
    if lo + 1 < n then
      (vget cl (lo + 1)) >>= fun c =>
        if c < word then nfd_hilo_lo cl n word f (lo + 1) else .ok lo
    else .ok lo

/-- `while hi < n && word >= (code_list[hi] & mask) { hi += 1 }`. -/
def nfd_hilo_hi (cl : List Nat) (n word mask : Nat) :
    Nat → Nat → Except Err Nat
  | 0, hi => .ok hi
  | f + 1, hi =>
    if hi < n then
      (vget cl hi) >>= fun c =>
        if c &&& mask ≤ word then nfd_hilo_hi cl n word mask f (hi + 1)
        else .ok hi
    else .ok hi

/-- The `for _ in 0..tabn` hi/lo hint loop; note `word` is a constant of
the loop in the source (`let word` inside the body). -/
def nfd_hilo (cl : List Nat) (n : Nat) (mask word : Nat) :
    Nat → Nat → Nat → List Nat → Except Err (List Nat)
  | 0, _, _, ft => .ok ft
  | t + 1, lo, hi, ft =>
    (vget ft (bitreverse word)) >>= fun entry =>
      if entry = 0 then
        (nfd_hilo_lo cl n word (n + 1) lo) >>= fun lo2 =>
          (nfd_hilo_hi cl n word mask (n + 1) hi) >>= fun hi2 =>
            (vset ft (bitreverse word)
              (0x80000000 ||| (min lo2 0x7FFF <<< 15) |||
                min (n - hi2) 0x7FFF)) >>= fun ft2 =>
              nfd_hilo cl n mask word t lo2 hi2 ft2
      else nfd_hilo cl n mask word t lo hi ft

/-- `CodeBook::new_for_decode` (codebook.rs lines 703-832). -/
def CodeBook.new_for_decode (src : StaticCodeBook) : Except Err CodeBook :=
  (nfd_count src.lengthlist (i32AsUsize src.entries)) >>= fun n =>
    if n = 0 then
      .ok { CodeBook.dflt with
        dim := src.dim, entries := src.entries, used_entries := src.entries }
    else
      (make_words src.lengthlist (i32AsUsize src.entries)
        (i32AsUsize src.entries)) >>= fun codes0 =>
        (nfd_revpass n codes0) >>= fun codes =>
          (nfd_sortindex
            (sortPairs (((codes.take n).enum).map fun p => (p.2, p.1)))
            0 []) >>= fun si =>
            (nfd_codelist codes si n []) >>= fun cl =>
              (nfd_decindex si src.lengthlist (i32AsUsize src.entries) 0 0
                (List.replicate n 0)) >>= fun di =>
                (nfd_declengths si src.lengthlist (i32AsUsize src.entries) 0
                  (List.replicate n 0)) >>= fun dcl =>
                  (listMaxI src.lengthlist) >>= fun dml =>
                    let value_list :=
                      List.replicate (book_unquantize_ok_length src n) 0
                    if n = 1 ∧ dml = 1 then
                      .ok { CodeBook.dflt with
                        dim := src.dim, entries := src.entries,
                        used_entries := src.entries,
                        value_list := value_list, code_list := cl,
                        dec_index := di, dec_codelengths := dcl,
                        dec_firsttablen := 1, dec_firsttable := [1, 1],
                        dec_maxlength := dml, quantvals := some 0 }
                    else
                      let ftlen : Int := max 5 (min ((ilog src.entries : Int) - 4) 8)
                      let tabn : Nat := 2 ^ ftlen.toNat
                      let mask : Nat := (0xFFFFFFFE <<< (31 - ftlen).toNat) % 2 ^ 32
                      let word : Nat := 2 ^ (32 - ftlen).toNat
                      (nfd_ftfill dcl cl ftlen n
                        (List.replicate tabn 0)) >>= fun ft =>
                        (nfd_hilo cl n mask word tabn 0 0 ft) >>= fun ft2 =>
                          .ok { CodeBook.dflt with
                            dim := src.dim, entries := src.entries,
                            used_entries := src.entries,
                            value_list := value_list, code_list := cl,
                            dec_index := di, dec_codelengths := dcl,
                            dec_firsttablen := ftlen, dec_firsttable := ft2,
                            dec_maxlength := dml, quantvals := some 0 }

example : CodeBook.new_for_decode
    { dim := 1, entries := 2, lengthlist := [1, 1], maptype := 0,
      q_min := 0, q_delta := 0, q_quant := 0, q_sequencep := false,
      quantlist := [] } = .error .panic := by decide

theorem vset_length {α : Type} {l : List α} {i : Nat} {x : α} {l2 : List α}
    (h : vset l i x = .ok l2) : l2.length = l.length := by
  unfold vset at h
  split at h
  · cases h
    exact List.length_set ..
  · cases h

theorem mw_pass1_ret_length (sparse : Bool) : ∀ (ll : List Int)
    (n count : Nat) (marker ret : List Nat) (out : Nat × List Nat × List Nat),
    mw_pass1 sparse ll n count marker ret = .ok out →
    out.2.2.length = ret.length := by
  intro ll
  induction ll with
  | nil =>
    intro n count marker ret out h
    cases n with
    | zero => cases h; rfl
    | succ m => cases h
  | cons lv rest ih =>
    intro n count marker ret out h
    cases n with
    | zero => cases h; rfl
    | succ m =>
      rw [mw_pass1_cons] at h
      split at h
      · rcases hge : vget marker (i8AsUsize lv) with e | entry
        · rw [hge] at h; cases h
        · rw [hge] at h
          simp only [bind_ok_eq] at h
          split at h
          · cases h
          · rcases hset : vset ret count entry with e | ret2
            · rw [hset] at h; cases h
            · rw [hset] at h
              simp only [bind_ok_eq] at h
              rw [ih m (count + 1) _ ret2 out h]
              exact vset_length hset
      · exact ih m _ marker ret out h

theorem mw_pass2_ret_length (sparse : Bool) : ∀ (ll : List Int)
    (n count : Nat) (ret : List Nat) (out : Nat × List Nat),
    mw_pass2 sparse ll n count ret = .ok out →
    out.2.length = ret.length := by
  intro ll
  induction ll with
  | nil =>
    intro n count ret out h
    cases n with
    | zero => cases h; rfl
    | succ m => cases h
  | cons lv rest ih =>
    intro n count ret out h
    cases n with
    | zero => cases h; rfl
    | succ m =>
      have hstep : mw_pass2 sparse (lv :: rest) (m + 1) count ret
          = if i8AsUsize lv > 0 then
              (vget ret count) >>= fun w =>
                (vset ret count (mw_rev w (i8AsUsize lv))) >>= fun ret2 =>
                  mw_pass2 sparse rest m (count + 1) ret2
            else if sparse then mw_pass2 sparse rest m count ret
            else
              (vset ret count 0) >>= fun ret2 =>
                mw_pass2 sparse rest m (count + 1) ret2 := rfl
      rw [hstep] at h
      split at h
      · rcases hge : vget ret count with e | w
        · rw [hge] at h; cases h
        · rw [hge] at h
          simp only [bind_ok_eq] at h
          rcases hset : vset ret count (mw_rev w (i8AsUsize lv)) with e | ret2
          · rw [hset] at h; cases h
          · rw [hset] at h
            simp only [bind_ok_eq] at h
            rw [ih m (count + 1) ret2 out h]
            exact vset_length hset
      · split at h
        · exact ih m count ret out h
        · rcases hset : vset ret count 0 with e | ret2
          · rw [hset] at h; cases h
          · rw [hset] at h
            simp only [bind_ok_eq] at h
            rw [ih m (count + 1) ret2 out h]
            exact vset_length hset

/-- The `Ok` result of `make_words` has the allocated size:
`sparsecount` if nonzero, else `n`. -/
theorem make_words_length {ll : List Int} {n sparsecount : Nat}
    {r : List Nat} (h : make_words ll n sparsecount = .ok r) :
    r.length = if sparsecount ≠ 0 then sparsecount else n := by
  rw [show make_words ll n sparsecount
      = (mw_pass1 (sparsecount != 0) ll n 0 (List.replicate 33 0)
          (List.replicate
            (if (sparsecount != 0) = true then sparsecount else n) 0))
        >>= fun out =>
          (if ¬(out.1 = 1 ∧ out.2.1.getD 2 0 = 2) ∧
              mw_underpopulated out.2.1 = true then
            Except.error Err.invalidData
          else
            (mw_pass2 (sparsecount != 0) ll n 0 out.2.2) >>= fun out2 =>
              Except.ok out2.2) from rfl] at h
  rcases h1 : mw_pass1 (sparsecount != 0) ll n 0 (List.replicate 33 0)
      (List.replicate (if (sparsecount != 0) = true then sparsecount else n) 0)
    with e | out
  · rw [h1] at h; cases h
  · rw [h1] at h
    simp only [bind_ok_eq] at h
    split at h
    · cases h
    · rcases h2 : mw_pass2 (sparsecount != 0) ll n 0 out.2.2 with e | out2
      · rw [h2] at h
        obtain ⟨c, m, r⟩ := out
        simp [bind_error_eq] at h
      · rw [h2] at h
        obtain ⟨c2, r2⟩ := out2
        obtain ⟨c, m, r0⟩ := out
        simp only [bind_ok_eq] at h
        cases h
        have e2 := mw_pass2_ret_length _ _ _ _ _ _ h2
        have e1 := mw_pass1_ret_length _ _ _ _ _ _ _ h1
        simp only at e1 e2
        rw [e2, e1, List.length_replicate]
        by_cases hs : sparsecount = 0 <;> simp [hs]

theorem nfd_count_le : ∀ (ll : List Int) (E n : Nat),
    nfd_count ll E = .ok n → n ≤ E := by
  intro ll
  induction ll with
  | nil =>
    intro E n h
    cases E with
    | zero => cases h; omega
    | succ m => cases h
  | cons lv rest ih =>
    intro E n h
    cases E with
    | zero => cases h; omega
    | succ m =>
      rcases hc : nfd_count rest m with e | c
      · rw [show nfd_count (lv :: rest) (m + 1)
            = (nfd_count rest m) >>= fun c =>
              .ok (if 0 < lv then c + 1 else c) from rfl, hc] at h
        cases h
      · rw [show nfd_count (lv :: rest) (m + 1)
            = (nfd_count rest m) >>= fun c =>
              .ok (if 0 < lv then c + 1 else c) from rfl, hc] at h
        simp only [bind_ok_eq] at h
        cases h
        have := ih m c hc
        split <;> omega

theorem nfd_revpass_ok : ∀ (k : Nat) (codes : List Nat),
    k ≤ codes.length →
    ∃ cs, nfd_revpass k codes = .ok cs ∧ cs.length = codes.length := by
  intro k
  induction k with
  | zero => intro codes _; exact ⟨codes, rfl, rfl⟩
  | succ j ih =>
    intro codes hk
    obtain ⟨cs, hcs, hlen⟩ := ih codes (by omega)
    have hj : j < cs.length := by omega
    refine ⟨cs.set j (bitreverse (cs.getD j 0)), ?_, by
      rw [List.length_set, hlen]⟩
    rw [show nfd_revpass (j + 1) codes
        = (nfd_revpass j codes) >>= fun cs =>
          (vget cs j) >>= fun w => vset cs j (bitreverse w) from rfl,
      hcs]
    simp only [bind_ok_eq]
    rw [vget_okN hj]
    simp only [bind_ok_eq]
    exact vset_ok hj _

theorem insertPair_length (p : Nat × Nat) : ∀ l : List (Nat × Nat),
    (insertPair p l).length = l.length + 1 := by
  intro l
  induction l with
  | nil => rfl
  | cons q qs ih =>
    unfold insertPair
    split
    · rfl
    · simp only [List.length_cons, ih]

theorem sortPairs_length : ∀ l : List (Nat × Nat),
    (sortPairs l).length = l.length := by
  intro l
  induction l with
  | nil => rfl
  | cons p ps ih =>
    unfold sortPairs
    rw [insertPair_length, ih, List.length_cons]

theorem nfd_sortindex_nil_panics (p : Nat × Nat) (rest : List (Nat × Nat))
    (i : Nat) : nfd_sortindex (p :: rest) i [] = .error .panic := by
  rw [show nfd_sortindex (p :: rest) i []
      = (vset ([] : List Nat) p.2 i) >>= fun si2 =>
        nfd_sortindex rest (i + 1) si2 from rfl]
  rw [show vset ([] : List Nat) p.2 i = .error .panic from by
    unfold vset
    rw [if_neg (by simp)]]
  rfl

/-- C1: for every `StaticCodeBook` with at least one entry of nonzero code
length, `new_for_decode` never returns `Ok`: the `sortindex` buffer is
created with `Vec::with_capacity(n)` — which has length 0 — and then
written through indexing, so the first `sortindex[position] = i` panics
(and books whose length list fails `make_words` error out even earlier).
The claimed decode-table correctness is therefore unattainable. -/
theorem C1_new_for_decode_never_ok (src : StaticCodeBook) (n : Nat)
    (hn : nfd_count src.lengthlist (i32AsUsize src.entries) = .ok n)
    (h1 : 1 ≤ n) :
    ∀ cb : CodeBook, CodeBook.new_for_decode src ≠ .ok cb := by
  intro cb
  unfold CodeBook.new_for_decode
  rw [hn]
  simp only [bind_ok_eq]
  rw [if_neg (by omega)]
  rcases hmw : make_words src.lengthlist (i32AsUsize src.entries)
      (i32AsUsize src.entries) with e | codes0
  · simp [bind_error_eq]
  · simp only [bind_ok_eq]
    have hE1 : 1 ≤ i32AsUsize src.entries := by
      by_contra hE
      have hE0 : i32AsUsize src.entries = 0 := by omega
      have hz : ∀ ll : List Int, nfd_count ll 0 = .ok 0 := fun ll => by
        cases ll <;> rfl
      rw [hE0, hz] at hn
      cases hn
      omega
    have hlen0 : codes0.length = i32AsUsize src.entries := by
      have := make_words_length hmw
      rw [this, if_pos (by omega)]
    have hnle : n ≤ codes0.length := by
      rw [hlen0]
      exact nfd_count_le _ _ _ hn
    obtain ⟨codes, hcodes, hclen⟩ := nfd_revpass_ok n codes0 hnle
    rw [hcodes]
    simp only [bind_ok_eq]
    have hslen : (sortPairs (((codes.take n).enum).map
        fun p => (p.2, p.1))).length = n := by
      rw [sortPairs_length, List.length_map, List.enum_length,
        List.length_take]
      omega
    rcases hsp : sortPairs (((codes.take n).enum).map fun p => (p.2, p.1))
      with _ | ⟨p, rest⟩
    · rw [hsp] at hslen
      simp at hslen
      omega
    · rw [hsp, nfd_sortindex_nil_panics]
      simp [bind_error_eq]

/-- Witness for `C1_new_for_decode_never_ok` at a two-entry book. -/
theorem C1_new_for_decode_never_ok_witness :
    CodeBook.new_for_decode
      { dim := 1, entries := 2, lengthlist := [1, 1], maptype := 0,
        q_min := 0, q_delta := 0, q_quant := 0, q_sequencep := false,
        quantlist := [] } ≠ .ok CodeBook.dflt :=
  C1_new_for_decode_never_ok
    { dim := 1, entries := 2, lengthlist := [1, 1], maptype := 0,
      q_min := 0, q_delta := 0, q_quant := 0, q_sequencep := false,
      quantlist := [] } 2 (by decide) (by decide) CodeBook.dflt

/-! ## codebook.rs: StaticCodeBook::pack and StaticCodeBook::load

`write_bits!(w, x, bits)` is `w.write(x as u32, bits)`; the casts are
`i32 as u32` (`intAsU32`) for `dim`/`entries`/`maptype`/`q_quant - 1`,
`i8 as u32` (sign-extending, `i8AsU32`) for `lengthlist[i] - 1`, and
`unsigned_abs` for quantlist entries.  `write_f32!`/`read_f32!` transmute,
i.e. move the raw 32-bit pattern, which is how `q_min`/`q_delta` are
modelled.  While loops carry explicit fuel that covers every iteration. -/

def intAsU32 (v : Int) : Nat := ((v % (2 ^ 32 : Int))).toNat

def i8AsU32 (v : Int) : Nat :=
  ((((v + 128) % 256 - 128) % (2 ^ 32 : Int))).toNat

/-- The `ordered` scan: `i` from 1 while
`lengthlist[i-1] != 0 && lengthlist[i] >= lengthlist[i-1]`. -/
def pk_scan (ll : List Int) (entries : Nat) : Nat → Nat → Except Err Nat
  | 0, i => .ok i
  | f + 1, i =>
    if i < entries then
      (vget ll (i - 1)) >>= fun prev =>
        (vget ll i) >>= fun cur =>
          if prev = 0 ∨ cur < prev then .ok i
          else pk_scan ll entries f (i + 1)
    else .ok i

/-- The inner `for _ in last..this` run of ordered packing: the first
iteration writes `i - count` and sets `count = i`, later ones write 0. -/
def pk_ord_inner (entries i : Nat) :
    Nat → Nat → BitWriter → Except Err (BitWriter × Nat)
  | 0, count, w => .ok (w, count)
  | s + 1, count, w =>
    (w.write (i - count) (ilog ((entries : Int) - (count : Int)))) >>= fun w2 =>
      pk_ord_inner entries i s i w2

/-- The outer `for i in 1..entries` loop of ordered packing. -/
def pk_ord_outer (ll : List Int) (entries : Nat) :
    Nat → Nat → Nat → BitWriter → Except Err (BitWriter × Nat)
  | 0, _, count, w => .ok (w, count)
  | f + 1, i, count, w =>
    if i < entries then
      (vget ll i) >>= fun this =>
        (vget ll (i - 1)) >>= fun last =>
          if last < this then
            (pk_ord_inner entries i (this - last).toNat count w) >>= fun r =>
              pk_ord_outer ll entries f (i + 1) r.2 r.1
          else pk_ord_outer ll entries f (i + 1) count w
    else .ok (w, count)

/-- `while i < entries && lengthlist[i] != 0 { i += 1 }`. -/
def pk_zero_scan (ll : List Int) (entries : Nat) : Nat → Nat → Except Err Nat
  | 0, i => .ok i
  | f + 1, i =>
    if i < entries then
      (vget ll i) >>= fun lv =>
        if lv = 0 then .ok i else pk_zero_scan ll entries f (i + 1)
    else .ok i

/-- `for i in 0..entries { write_bits!(w, lengthlist[i] - 1, 5) }`. -/
def pk_unord_plain (ll : List Int) (entries : Nat) :
    Nat → Nat → BitWriter → Except Err BitWriter
  | 0, _, w => .ok w
  | f + 1, i, w =>
    if i < entries then
      (vget ll i) >>= fun lv =>
        (w.write (i8AsU32 (lv - 1)) 5) >>= fun w2 =>
          pk_unord_plain ll entries f (i + 1) w2
    else .ok w

/-- The tagged per-entry loop of unordered packing with unused entries. -/
def pk_unord_tagged (ll : List Int) (entries : Nat) :
    Nat → Nat → BitWriter → Except Err BitWriter
  | 0, _, w => .ok w
  | f + 1, i, w =>
    if i < entries then
      (vget ll i) >>= fun lv =>
        if lv = 0 then
          (w.write 0 1) >>= fun w2 => pk_unord_tagged ll entries f (i + 1) w2
        else
          (w.write 1 1) >>= fun w2 =>
            (w2.write (i8AsU32 (lv - 1)) 5) >>= fun w3 =>
              pk_unord_tagged ll entries f (i + 1) w3
    else .ok w

/-- `for i in 0..quantvals { write_bits!(w, quantlist[i].unsigned_abs(),
q_quant) }`. -/
def pk_quant (ql : List Int) (q_quant : Int) (quantvals : Nat) :
    Nat → Nat → BitWriter → Except Err BitWriter
  | 0, _, w => .ok w
  | f + 1, i, w =>
    if i < quantvals then
      (vget ql i) >>= fun q =>
        (w.write q.natAbs q_quant) >>= fun w2 =>
          pk_quant ql q_quant quantvals f (i + 1) w2
    else .ok w

/-- `StaticCodeBook::pack` (codebook.rs lines 347-454); returns the bit
count together with the writer.  `guess` feeds
`book_maptype1_quantvals` (maptype 1). -/
def StaticCodeBook.pack (b : StaticCodeBook) (guess : Int) (w : BitWriter) :
    Except Err (Nat × BitWriter) :=
  let begin_bits := w.total_bits
  let entries := i32AsUsize b.entries
  (w.write 0x564342 24) >>= fun w =>
    (w.write (intAsU32 b.dim) 16) >>= fun w =>
      (w.write (intAsU32 b.entries) 24) >>= fun w =>
        (pk_scan b.lengthlist entries entries 1) >>= fun iscan =>
          (if iscan = entries then
            -- ordered
            (w.write 1 1) >>= fun w =>
              (vget b.lengthlist 0) >>= fun l0 =>
                (w.write (i8AsU32 (l0 - 1)) 5) >>= fun w =>
                  (pk_ord_outer b.lengthlist entries entries 1 0 w) >>= fun r =>
                    (r.1.write (entries - r.2)
                      (ilog ((entries : Int) - (r.2 : Int)))) >>= fun w =>
                      .ok w
          else
            -- length random
            (w.write 0 1) >>= fun w =>
              (pk_zero_scan b.lengthlist entries entries 0) >>= fun izero =>
                if izero = entries then
                  (w.write 0 1) >>= fun w =>
                    pk_unord_plain b.lengthlist entries entries 0 w
                else
                  (w.write 1 1) >>= fun w =>
                    pk_unord_tagged b.lengthlist entries entries 0 w) >>= fun w =>
          (w.write (intAsU32 b.maptype) 4) >>= fun w =>
            (if b.maptype = 0 then .ok w
            else if b.maptype = 1 ∨ b.maptype = 2 then
              if b.quantlist.isEmpty then .error .invalidData
              else
                (w.write b.q_min 32) >>= fun w =>
                  (w.write b.q_delta 32) >>= fun w =>
                    (w.write (intAsU32 (b.q_quant - 1)) 4) >>= fun w =>
                      (w.write (if b.q_sequencep then 1 else 0) 1) >>= fun w =>
                        (if b.maptype = 1 then
                          match b.book_maptype1_quantvals guess with
                          | some qv => .ok (i32AsUsize qv)
                          | none => .error .panic
                        else
                          .ok (i32AsUsize b.entries * i32AsUsize b.dim))
                          >>= fun quantvals =>
                          pk_quant b.quantlist b.q_quant quantvals quantvals 0 w
            else .error .invalidData) >>= fun w =>
              .ok (w.total_bits - begin_bits, w)

/-- The unordered all-used load loop: `lengthlist[i] = read5 + 1`. -/
def ld_unord_plain (entries : Nat) :
    Nat → BitReader → List Int → Except Err (List Int × BitReader)
  | 0, br, acc => .ok (acc.reverse, br)
  | f + 1, br, acc =>
    (br.read 5) >>= fun vr =>
      ld_unord_plain entries f vr.2 (((vr.1 + 1 : Nat) : Int) :: acc)

/-- The unordered tagged load loop. -/
def ld_unord_tagged (entries : Nat) :
    Nat → BitReader → List Int → Except Err (List Int × BitReader)
  | 0, br, acc => .ok (acc.reverse, br)
  | f + 1, br, acc =>
    (br.read 1) >>= fun tr =>
      if tr.1 ≠ 0 then
        (tr.2.read 5) >>= fun vr =>
          ld_unord_tagged entries f vr.2 (((vr.1 + 1 : Nat) : Int) :: acc)
      else
        ld_unord_tagged entries f tr.2 (0 :: acc)

/-- The ordered load loop: runs of equal lengths, `length` increasing. -/
def ld_ordered (entries : Int) (fuel : Nat) (i length : Int) (br : BitReader)
    (acc : List Int) : Except Err (List Int × BitReader) :=
  match fuel with
  | 0 => if i < entries then .error .panic else .ok (acc.reverse, br)
  | f + 1 =>
    if i < entries then
      (br.read (ilog (entries - i))) >>= fun vr =>
        let num : Int := (vr.1 : Int)
        if 32 < length ∨ entries - i < num ∨
            (0 < num ∧ 1 < (num - 1).toNat >>> (length - 1).toNat) then
          .error .invalidData
        else
          ld_ordered entries f (i + num) (length + 1) vr.2
            (List.replicate num.toNat length ++ acc)
    else .ok (acc.reverse, br)
  termination_by structural fuel

/-- The quantlist load loop: `quantlist[i] = read(q_quant)`. -/
def ld_quant (q_quant : Int) :
    Nat → BitReader → List Int → Except Err (List Int × BitReader)
  | 0, br, acc => .ok (acc.reverse, br)
  | f + 1, br, acc =>
    (br.read q_quant) >>= fun vr =>
      ld_quant q_quant f vr.2 ((vr.1 : Int) :: acc)

/-- `StaticCodeBook::load` (codebook.rs lines 151-239). -/
def StaticCodeBook.load (br : BitReader) (guess : Int) :
    Except Err (StaticCodeBook × BitReader) :=
  (br.read 24) >>= fun sr =>
    if sr.1 ≠ 0x564342 then .error .invalidData
    else
      (sr.2.read 16) >>= fun dr =>
        (dr.2.read 24) >>= fun er =>
          let dim : Int := (dr.1 : Int)
          let entries : Int := (er.1 : Int)
          if 24 < ilog dim + ilog entries then .error .invalidData
          else
            (er.2.read 1) >>= fun or1 =>
              (match or1.1 with
              | 0 =>
                (or1.2.read 1) >>= fun ur =>
                  if ur.1 ≠ 0 then
                    ld_unord_tagged (i32AsUsize entries) (i32AsUsize entries)
                      ur.2 []
                  else
                    ld_unord_plain (i32AsUsize entries) (i32AsUsize entries)
                      ur.2 []
              | 1 =>
                (or1.2.read 5) >>= fun lr =>
                  ld_ordered entries 34 0 ((lr.1 + 1 : Nat) : Int) lr.2 []
              | _ => .error .invalidData) >>= fun llr =>
                (llr.2.read 4) >>= fun mr =>
                  let maptype : Int := (mr.1 : Int)
                  let ret0 : StaticCodeBook :=
                    { dim := dim, entries := entries, lengthlist := llr.1,
                      maptype := maptype, q_min := 0, q_delta := 0,
                      q_quant := 0, q_sequencep := false, quantlist := [] }
                  if maptype = 0 then .ok (ret0, mr.2)
                  else if maptype = 1 ∨ maptype = 2 then
                    (mr.2.read 32) >>= fun qminr =>
                      (qminr.2.read 32) >>= fun qdr =>
                        (qdr.2.read 4) >>= fun qqr =>
                          (qqr.2.read 1) >>= fun qsr =>
                            let q_quant : Int := ((qqr.1 + 1 : Nat) : Int)
                            let ret1 : StaticCodeBook :=
                              { ret0 with
                                q_min := qminr.1, q_delta := qdr.1,
                                q_quant := q_quant,
                                q_sequencep := qsr.1 ≠ 0 }
                            (if maptype = 1 then
                              if dim = 0 then .ok 0
                              else
                                match ret1.book_maptype1_quantvals guess with
                                | some qv => .ok (i32AsUsize qv)
                                | none => .error .panic
                            else
                              .ok (i32AsUsize entries * i32AsUsize dim))
                              >>= fun quantvals =>
                              (ld_quant q_quant quantvals qsr.2 []) >>= fun qlr =>
                                .ok ({ ret1 with quantlist := qlr.1 },
                                  qlr.2)
                  else .error .invalidData

/-- Pack from a fresh writer, then load the produced bytes: the round
trip of C4, returning the loaded book, the packed bit count and the bit
count the loader consumed. -/
def packThenLoad (b : StaticCodeBook) (guess : Int) :
    Except Err (StaticCodeBook × Nat × Nat) :=
  (b.pack guess BitWriter.new) >>= fun pr =>
    (StaticCodeBook.load (BitReader.new pr.2.into_bytes) guess) >>= fun lr =>
      .ok (lr.1, pr.1, lr.2.total_bits)

example :
    packThenLoad
      { dim := 1, entries := 1, lengthlist := [1], maptype := 0, q_min := 0,
        q_delta := 0, q_quant := 0, q_sequencep := false, quantlist := [] } 1
    = .ok ({ dim := 1, entries := 1, lengthlist := [1], maptype := 0,
             q_min := 0, q_delta := 0, q_quant := 0, q_sequencep := false,
             quantlist := [] }, 75, 75) := by decide

example :
    packThenLoad
      { dim := 1, entries := 2, lengthlist := [2, 1], maptype := 0,
        q_min := 0, q_delta := 0, q_quant := 0, q_sequencep := false,
        quantlist := [] } 1
    = .ok ({ dim := 1, entries := 2, lengthlist := [2, 1], maptype := 0,
             q_min := 0, q_delta := 0, q_quant := 0, q_sequencep := false,
             quantlist := [] }, 80, 80) := by decide

set_option maxRecDepth 100000 in
example : packThenLoad c6book 1 = .ok (c6book, 147, 147) := by decide

end Revorbis
